import Mathlib

/-!
Shallow embedding of `src/files/scripts/inventory.py` (the Ansible dynamic
inventory generator of the vml repository) and proofs about the claims of
its specification.

The Python program reads a JSON list of VM records, builds per-host
variables from optional connection fields (`InventoryBuilder.hostvars`),
derives ancestor groups from slash-separated VM names via
`pathlib.Path(name).parents` (`InventoryBuilder.groups`), and prints one
inventory document.  We embed the record type, the JSON document that the
builder mutates, both stages, and the composition performed by `main`.
-/

namespace Inventory

/-- Scalar JSON values as they occur in the VM records produced by
`vml show --format-json`: strings, integers, booleans and null.  These are
the values the Python code tests for truthiness with `if x := vm.get(...)`. -/
inductive Scalar where
  | s : String → Scalar
  | n : Int → Scalar
  | b : Bool → Scalar
  | null : Scalar
deriving DecidableEq, Repr

/-- Python truthiness of a scalar: empty string, zero, `False` and `None`
are falsy, everything else is truthy. -/
def truthy : Scalar → Bool
  | .s str => str ≠ ""
  | .n k => k ≠ 0
  | .b bv => bv
  | .null => false

/-- JSON values: scalars, arrays, and objects.  Objects are modelled as
insertion-ordered association lists, matching CPython dict semantics
(assignment to an existing key updates it in place, a new key is appended). -/
inductive JVal where
  | scalar : Scalar → JVal
  | arr : List JVal → JVal
  | obj : List (String × JVal) → JVal

/-- A JSON object body: what `self.inventory` is in the Python code. -/
abbrev Doc := List (String × JVal)

/-- Lookup of a key in a Python dict (association list), `d[k]` read side. -/
def dictGet (m : Doc) (k : String) : Option JVal :=
  match m with
  | [] => none
  | (k', v) :: rest => if k' = k then some v else dictGet rest k

/-- Assignment `d[k] = v` on a Python dict: an existing key keeps its
position and gets the new value, a fresh key is appended at the end. -/
def dictSet (m : Doc) (k : String) (v : JVal) : Doc :=
  match m with
  | [] => [(k, v)]
  | (k', v') :: rest => if k' = k then (k, v) :: rest else (k', v') :: dictSet rest k v

/-- The key list of a dict, in insertion order. -/
def keysOf (m : Doc) : List String := m.map Prod.fst

/-! ### Path model

`InventoryBuilder.groups` runs `[p.as_posix() for p in Path(name).parents][:-1]`.
We model `PurePosixPath` parsing: the name is split on `/`, empty and `"."`
components are dropped, and a leading `/` (or exactly two leading slashes)
is remembered as the root.  `parents` enumerates the strict prefixes of the
component list from longest to shortest, and the final `[:-1]` drops the
last parent (the bare root `/` or `"."`). -/

/-- Split a character list at every occurrence of `c` (like Python
`str.split` with a one-character separator): the result is always
non-empty, and separators at the ends yield empty pieces. -/
def splitChar (c : Char) : List Char → List (List Char)
  | [] => [[]]
  | x :: xs =>
    if x = c then [] :: splitChar c xs
    else
      match splitChar c xs with
      | [] => [[x]]
      | piece :: rest => (x :: piece) :: rest

/-- The root of a POSIX path string: `""` for relative names, `"/"` for
absolute ones, and the implementation-defined `"//"` kept by pathlib when
the name starts with exactly two slashes. -/
def posixRoot (l : List Char) : String :=
  match l with
  | [] => ""
  | c :: rest =>
    if c = '/' then
      match rest with
      | [] => "/"
      | c2 :: rest2 =>
        if c2 = '/' then
          match rest2 with
          | [] => "//"
          | c3 :: _ => if c3 = '/' then "/" else "//"
        else "/"
    else ""

/-- Join path components with `/`. -/
def joinSlash (parts : List String) : String := String.intercalate "/" parts

/-- The non-empty, non-`"."` path components of a name, as pathlib keeps
them. -/
def pathComps (name : String) : List String :=
  ((splitChar '/' name.toList).map (fun cs => String.mk cs)).filter
    (fun t => t ≠ "" && t ≠ ".")

/-- Render a pathlib path with the given root and component list back to a
string, as `as_posix` does (`"."` for an empty relative path). -/
def renderPosix (root : String) (parts : List String) : String :=
  match parts with
  | [] => if root = "" then "." else root
  | _ => if root = "" then joinSlash parts else root ++ joinSlash parts

/-- The group names derived from one VM name: the Python expression
`[p.as_posix() for p in Path(name).parents][:-1]`, i.e. all strict ancestor
prefixes of the name, longest first, with the trailing root (`"."` or `/`)
removed. -/
def nameGroups (name : String) : List String :=
  (List.range ((pathComps name).length - 1)).map
    (fun j => renderPosix (posixRoot name.toList)
      ((pathComps name).take ((pathComps name).length - 1 - j)))

/-! ### Address model

`InventoryBuilder.hostvars` calls `str(ipaddress.ip_interface(cidr).ip)`.
The functions below are modelled from the CPython `ipaddress` module:
IPv4 and IPv6 addresses with an optional `/prefix` part (for IPv4 the
prefix may also be a dotted netmask or hostmask), restricted to string and
integer inputs; IPv6 zone identifiers (`%zone`) and byte-string inputs are
outside the model.  `ip_interface(x).ip` keeps the host bits of `x`, so the
rendered address is the address part of the input in canonical form. -/

/-- Numeric value of one hexadecimal digit. -/
def hexVal (c : Char) : Option Nat :=
  if '0' ≤ c ∧ c ≤ '9' then some (c.toNat - 48)
  else if 'a' ≤ c ∧ c ≤ 'f' then some (c.toNat - 87)
  else if 'A' ≤ c ∧ c ≤ 'F' then some (c.toNat - 55)
  else none

/-- One dotted-quad octet, per CPython `_parse_octet`: one to three ASCII
digits, value at most 255, no leading zero. -/
def parseOctet (cs : List Char) : Option Nat :=
  if cs.isEmpty then none
  else if !cs.all Char.isDigit then none
  else if 3 < cs.length then none
  else
    let v := cs.foldl (fun a c => a * 10 + (c.toNat - 48)) 0
    if 255 < v then none
    else if 1 < cs.length ∧ cs.head? = some '0' then none
    else some v

/-- An IPv4 address string as its 32-bit value. -/
def parseIPv4 (cs : List Char) : Option Nat :=
  match (splitChar '.' cs).mapM parseOctet with
  | some [a, b, c, d] => some (((a * 256 + b) * 256 + c) * 256 + d)
  | _ => none

/-- Canonical dotted-quad rendering of a 32-bit value. -/
def renderIPv4 (n : Nat) : String :=
  String.intercalate "."
    ([n / 16777216 % 256, n / 65536 % 256, n / 256 % 256, n % 256].map
      (fun v => String.mk (Nat.toDigits 10 v)))

/-- One IPv6 hextet: one to four hexadecimal digits. -/
def parseHextet (cs : List Char) : Option Nat :=
  if cs.isEmpty then none
  else if 4 < cs.length then none
  else (cs.mapM hexVal).map (fun ds => ds.foldl (fun a d => a * 16 + d) 0)

/-- Core of CPython `IPv6Address._ip_int_from_string` after the embedded
IPv4 substitution: `parts` are the pieces between colons; at most one
interior empty piece (the `::`), leading and trailing colons only as part
of `::`, and exactly eight hextets once the skipped zeros are counted. -/
def parseIPv6core (parts : List (List Char)) : Option Nat :=
  if 9 < parts.length then none
  else
    let inner := (parts.drop 1).dropLast
    if 2 ≤ inner.countP (fun q => q.isEmpty) then none
    else
      match inner.findIdx? (fun q => q.isEmpty) with
      | some i0 =>
        let si := i0 + 1
        let len := parts.length
        let lo0 := len - si - 1
        if parts.head? = some [] ∧ si ≠ 1 then none
        else if parts.getLast? = some [] ∧ lo0 ≠ 1 then none
        else
          let hi := if parts.head? = some [] then 0 else si
          let lo := if parts.getLast? = some [] then 0 else lo0
          if 8 ≤ hi + lo then none
          else do
            let hs ← (parts.take hi).mapM parseHextet
            let ls ← (parts.drop (len - lo)).mapM parseHextet
            let hiV := hs.foldl (fun a x => a * 65536 + x) 0
            let loV := ls.foldl (fun a x => a * 65536 + x) 0
            some (hiV * 65536 ^ (8 - hi) + loV)
      | none =>
        if parts.length ≠ 8 then none
        else if parts.head? = some [] then none
        else if parts.getLast? = some [] then none
        else (parts.mapM parseHextet).map (fun hs => hs.foldl (fun a x => a * 65536 + x) 0)

/-- An IPv6 address string as its 128-bit value: split on `:`, substitute a
trailing embedded IPv4 part, then parse the hextets around one `::`. -/
def parseIPv6 (cs : List Char) : Option Nat :=
  let parts := splitChar ':' cs
  if parts.length < 3 then none
  else
    match parts.getLast? with
    | none => none
    | some lastP =>
      if '.' ∈ lastP then
        match parseIPv4 lastP with
        | some v4 => parseIPv6core
            (parts.dropLast ++ [Nat.toDigits 16 (v4 / 65536), Nat.toDigits 16 (v4 % 65536)])
        | none => none
      else parseIPv6core parts

/-- The longest run of zero hextets, as `(start, length)`; ties keep the
leftmost run, mirroring the strict improvement test in CPython. -/
def bestZeroRun (hs : List Nat) : Nat × Nat :=
  (hs.foldl
    (fun acc x =>
      let (best, cur, i) := acc
      if x = 0 then
        let cur' : Nat × Nat := match cur with
          | none => (i, 1)
          | some (cs, cl) => (cs, cl + 1)
        ((if best.2 < cur'.2 then cur' else best), some cur', i + 1)
      else (best, none, i + 1))
    (((0, 0) : Nat × Nat), (none : Option (Nat × Nat)), 0)).1

/-- Canonical (RFC 5952 style) rendering of a 128-bit value, compressing
the longest zero run of length at least two with `::`. -/
def renderIPv6 (n : Nat) : String :=
  let hx := (List.range 8).map (fun i => n / 65536 ^ (7 - i) % 65536)
  let strs := hx.map (fun v => String.mk (Nat.toDigits 16 v))
  let (st, ln) := bestZeroRun hx
  if 1 < ln then
    let en := st + ln
    let strs2 := if en = 8 then strs ++ [""] else strs
    let strs3 := strs2.take st ++ [""] ++ strs2.drop en
    String.intercalate ":" (if st = 0 then "" :: strs3 else strs3)
  else String.intercalate ":" strs

/-- A prefix-length string: ASCII digits whose value is at most `maxLen`,
per CPython `_prefix_from_prefix_string`. -/
def prefixLenOk (maxLen : Nat) (cs : List Char) : Bool :=
  !cs.isEmpty && cs.all Char.isDigit &&
    cs.foldl (fun a c => a * 10 + (c.toNat - 48)) 0 ≤ maxLen

/-- Validity of the part after `/` for an IPv4 interface: a prefix length,
or a dotted-quad netmask (contiguous ones from the top) or hostmask. -/
def v4MaskOk (cs : List Char) : Bool :=
  prefixLenOk 32 cs ||
    (match parseIPv4 cs with
     | some v =>
       (List.range 33).any (fun p => v = 4294967296 - 2 ^ (32 - p)) ||
       (List.range 33).any (fun p => 4294967295 - v = 4294967296 - 2 ^ (32 - p))
     | none => false)

/-- The string `str(ipaddress.ip_interface(x).ip)`, or `none` when
`ip_interface` raises `ValueError`.  String inputs are split at `/` into an
address and an optional mask; IPv4 is tried before IPv6.  Integer inputs
denote raw addresses; booleans are Python ints. -/
def ipInterfaceIpStr (x : Scalar) : Option String :=
  match x with
  | .s str =>
    match splitChar '/' str.toList with
    | [a] => ((parseIPv4 a).map renderIPv4).orElse (fun _ => (parseIPv6 a).map renderIPv6)
    | [a, m] =>
      (match parseIPv4 a with
       | some ip => if v4MaskOk m then some (renderIPv4 ip) else none
       | none => none).orElse
      (fun _ =>
        match parseIPv6 a with
        | some ip => if prefixLenOk 128 m then some (renderIPv6 ip) else none
        | none => none)
    | _ => none
  | .n k =>
    if 0 ≤ k ∧ k < 4294967296 then some (renderIPv4 k.toNat)
    else if 0 ≤ k ∧ k < 2 ^ 128 then some (renderIPv6 k.toNat)
    else none
  | .b bv => some (renderIPv4 (if bv then 1 else 0))
  | .null => none

/-- One step of `groups[group].add(name)` on a `defaultdict(set)`: the set
of members is modelled as its insertion-ordered duplicate-free list. -/
def addMember (gs : List (String × List String)) (g : String) (n : String) :
    List (String × List String) :=
  match gs with
  | [] => [(g, [n])]
  | (g', ms) :: rest =>
    if g' = g then (g', if n ∈ ms then ms else ms ++ [n]) :: rest
    else (g', ms) :: addMember rest g n

/-- One name's contribution to the group map: the inner loop of
`InventoryBuilder.groups`, adding the name to each of its ancestor groups. -/
def addAll (gs : List (String × List String)) (name : String) :
    List (String × List String) :=
  (nameGroups name).foldl (fun gs' g => addMember gs' g name) gs

/-- The group map built by the loop in `InventoryBuilder.groups`: for each
name in order, the name is added to the member set of each of its ancestor
groups. -/
def groupsOf (names : List String) : List (String × List String) :=
  names.foldl addAll []

/-! ### VM records and the two stages -/

/-- One VM record as consumed by the script: a mandatory `name` and the six
optional connection fields read with `vm.get(...)`. -/
structure VMRecord where
  name : String
  ssh_host : Option Scalar := none
  ssh_port : Option Scalar := none
  ssh_user : Option Scalar := none
  ssh_key : Option Scalar := none
  ssh_options : Option Scalar := none
  network_address : Option Scalar := none
deriving DecidableEq, Repr

/-- One `if x := vm.get(field): host_vars[key] = x` step: the key is
written exactly when the field is present and truthy. -/
def optVar (k : String) (v : Option Scalar) : List (String × JVal) :=
  match v with
  | some x => if truthy x then [(k, .scalar x)] else []
  | none => []

/-- The `network_address` block of `hostvars`: a truthy value writes the
verbatim CIDR and the parsed address, and a value `ip_interface` rejects
raises `ValueError` (aborting the run). -/
def netPart (v : Option Scalar) : Except String (List (String × JVal)) :=
  match v with
  | some x =>
    if truthy x then
      match ipInterfaceIpStr x with
      | some addr => .ok [("network_cidr", .scalar x), ("network_address", .scalar (.s addr))]
      | none => .error "ValueError: does not appear to be an IPv4 or IPv6 interface"
    else .ok []
  | none => .ok []

/-- The `host_vars` dict built for one record by `InventoryBuilder.hostvars`,
in the order the Python code inserts the keys. -/
def hostvarsOf (vm : VMRecord) : Except String (List (String × JVal)) :=
  (netPart vm.network_address).map (fun np =>
    optVar "ansible_host" vm.ssh_host ++ optVar "ansible_port" vm.ssh_port ++
      optVar "ansible_user" vm.ssh_user ++
      optVar "ansible_ssh_private_key_file" vm.ssh_key ++
      optVar "ansible_ssh_common_args" vm.ssh_options ++ np)

/-- The assignment `self.inventory["_meta"]["hostvars"][name] = hv`,
with Python's failure modes when an intermediate key is missing or its
value is not a dict. -/
def setMetaHostvar (doc : Doc) (name : String) (hv : JVal) : Except String Doc :=
  match dictGet doc "_meta" with
  | some (.obj m) =>
    match dictGet m "hostvars" with
    | some (.obj h) =>
      .ok (dictSet doc "_meta" (.obj (dictSet m "hostvars" (.obj (dictSet h name hv)))))
    | some _ => .error "TypeError: value of key hostvars is not a dict"
    | none => .error "KeyError: hostvars"
  | some _ => .error "TypeError: value of key _meta is not a dict"
  | none => .error "KeyError: _meta"

/-- The loop of `InventoryBuilder.hostvars`: for each record in order,
build its `host_vars` and, when non-empty, store it under the record's
name in `_meta.hostvars`. -/
def hvStage (vms : List VMRecord) (doc : Doc) : Except String Doc :=
  match vms with
  | [] => .ok doc
  | vm :: rest =>
    match hostvarsOf vm with
    | .error e => .error e
    | .ok hv =>
      if hv.isEmpty then hvStage rest doc
      else
        match setMetaHostvar doc vm.name (.obj hv) with
        | .error e => .error e
        | .ok d => hvStage rest d

/-- The dict `{"hosts": list(hosts)}` written for one group; the listing
order of the Python set is supplied by the enumeration policy `p`. -/
def groupObj (hosts : List String) : JVal :=
  .obj [("hosts", .arr (hosts.map (fun n => .scalar (.s n))))]

/-- The second half of `InventoryBuilder.groups`: write each group's entry
into the top-level document, in group insertion order. -/
def writeGroups (p : List String → List String) (gs : List (String × List String))
    (doc : Doc) : Doc :=
  match gs with
  | [] => doc
  | (g, ms) :: rest => writeGroups p rest (dictSet doc g (groupObj (p ms)))

/-- `InventoryBuilder.groups`: derive the group map; when it is non-empty,
set `all.children` to the list of group names and write one top-level
entry per group. -/
def groupsStage (p : List String → List String) (names : List String)
    (doc : Doc) : Except String Doc :=
  let gs := groupsOf names
  if gs.isEmpty then .ok doc
  else
    match dictGet doc "all" with
    | some (.obj allObj) =>
      .ok (writeGroups p gs (dictSet doc "all" (.obj (dictSet allObj "children"
        (.arr ((gs.map Prod.fst).map (fun g => .scalar (.s g))))))))
    | some _ => .error "TypeError: value of key all is not a dict"
    | none => .error "KeyError: all"

/-- The VM names, in record order (`self.names`). -/
def namesOf (vms : List VMRecord) : List String := vms.map VMRecord.name

/-- The document built in `InventoryBuilder.__init__`. -/
def initDoc (vms : List VMRecord) : Doc :=
  [("all", .obj [("hosts", .arr ((namesOf vms).map (fun n => .scalar (.s n)))),
     ("vars", .obj [("ansible_python_interpreter", .scalar (.s "/usr/bin/python3"))])]),
   ("_meta", .obj [("hostvars", .obj [])])]

/-- The whole transform as `main` runs it: build the initial document, run
`hostvars`, then `groups`.  An error aborts the run before anything is
printed, so no document at all is produced. -/
def buildInventory (p : List String → List String) (vms : List VMRecord) :
    Except String Doc :=
  (hvStage vms (initDoc vms)).bind (groupsStage p (namesOf vms))

/-- The two stages run in the opposite order, used to state the claim that
they are order-independent. -/
def groupsThenHv (p : List String → List String) (vms : List VMRecord) :
    Except String Doc :=
  (groupsStage p (namesOf vms) (initDoc vms)).bind (hvStage vms)

/-- An enumeration policy for Python's unordered sets: any function that
lists the members of a set exactly once, i.e. permutes the member list. -/
def PermPolicy (p : List String → List String) : Prop :=
  ∀ l, (p l).Perm l

/-! ### Helper definitions for the statements and proofs -/

/-- The group-name list of a group map. -/
def gkeys (gs : List (String × List String)) : List String := gs.map Prod.fst

/-- The invariant of one group-map entry: a non-empty duplicate-free
member list whose members come from the processed names and have the entry
key among their ancestor groups. -/
def entryInv (names : List String) (e : String × List String) : Prop :=
  e.2 ≠ [] ∧ e.2.Nodup ∧ ∀ nm ∈ e.2, nm ∈ names ∧ e.1 ∈ nameGroups nm

/-- The pure content of the `hostvars` loop: the association of VM names to
their non-empty `host_vars` dicts, threaded in record order. -/
def hvFold (vms : List VMRecord) (h : Doc) : Except String Doc :=
  match vms with
  | [] => .ok h
  | vm :: rest =>
    match hostvarsOf vm with
    | .error e => .error e
    | .ok hv => if hv.isEmpty then hvFold rest h else hvFold rest (dictSet h vm.name (.obj hv))

/-- The `hosts` array of the `all` entry. -/
def hostsArr (vms : List VMRecord) : JVal :=
  .arr ((namesOf vms).map (fun n => .scalar (.s n)))

/-- The fixed `vars` entry of `all`. -/
def varsObj : JVal := .obj [("ansible_python_interpreter", .scalar (.s "/usr/bin/python3"))]

/-- The `children` array listing the derived group names. -/
def childrenArr (vms : List VMRecord) : JVal :=
  .arr ((gkeys (groupsOf (namesOf vms))).map (fun g => .scalar (.s g)))

/-- The `all` entry before the group stage touches it. -/
def allPair0 (vms : List VMRecord) : String × JVal :=
  ("all", .obj [("hosts", hostsArr vms), ("vars", varsObj)])

/-- The `all` entry after `children` has been appended. -/
def allPair1 (vms : List VMRecord) : String × JVal :=
  ("all", .obj [("hosts", hostsArr vms), ("vars", varsObj), ("children", childrenArr vms)])

/-- The `_meta` entry holding a hostvars object. -/
def metaPair (h : Doc) : String × JVal := ("_meta", .obj [("hostvars", .obj h)])

/-- Read `doc["all"]["hosts"]` as a list (empty when absent). -/
def allHostsOf (doc : Doc) : List JVal :=
  match dictGet doc "all" with
  | some (.obj a) =>
    match dictGet a "hosts" with
    | some (.arr l) => l
    | _ => []
  | _ => []

/-- Read `doc["all"]["children"]`, `none` when the key is absent. -/
def allChildrenOf (doc : Doc) : Option JVal :=
  match dictGet doc "all" with
  | some (.obj a) => dictGet a "children"
  | _ => none

/-- Read `doc["all"]["children"]` as a list (empty when absent). -/
def allChildrenList (doc : Doc) : List JVal :=
  match allChildrenOf doc with
  | some (.arr l) => l
  | _ => []

/-- Read `doc[g]["hosts"]` as a list (empty when absent). -/
def groupHostsOf (doc : Doc) (g : String) : List JVal :=
  match dictGet doc g with
  | some (.obj a) =>
    match dictGet a "hosts" with
    | some (.arr l) => l
    | _ => []
  | _ => []

/-- The keys of `doc["_meta"]["hostvars"]` (empty when the path is broken). -/
def hostvarsKeysOf (doc : Doc) : List String :=
  match dictGet doc "_meta" with
  | some (.obj m) =>
    match dictGet m "hostvars" with
    | some (.obj h) => keysOf h
    | _ => []
  | _ => []

/-- How many entries of a JSON array are the string `nm`. -/
def countStr (l : List JVal) (nm : String) : Nat :=
  l.countP (fun v => match v with | .scalar (.s x) => x = nm | _ => false)

/-- The raw slash-separated segments of a name, before pathlib drops empty
and `"."` components. -/
def rawSegsOf (name : String) : List String :=
  (splitChar '/' name.toList).map (fun cs => String.mk cs)

/-- A well-formed hierarchical VM name: every raw slash-separated segment
is non-empty and differs from `"."`, so pathlib's normalisation is the
identity on it. -/
def wellFormedName (name : String) : Bool :=
  (rawSegsOf name).all (fun t => t ≠ "" && t ≠ ".")

/-- The ancestor prefixes the specification describes: for segments
`s₁…s_k`, the joins of `s₁…s_i` for `i` in `1..k-1`. -/
def c1Expected (name : String) : List String :=
  (List.range' 1 ((rawSegsOf name).length - 1)).map
    (fun i => joinSlash ((rawSegsOf name).take i))

/-- Structural equality of documents up to reordering of JSON arrays: the
relation the specification's set-semantics clauses quantify over. -/
inductive JEquiv : JVal → JVal → Prop where
  | refl (v : JVal) : JEquiv v v
  | arr {l l' : List JVal} (h : l.Perm l') : JEquiv (.arr l) (.arr l')
  | objNil : JEquiv (.obj []) (.obj [])
  | objCons {k : String} {v w : JVal} {m m' : List (String × JVal)} :
      JEquiv v w → JEquiv (.obj m) (.obj m') → JEquiv (.obj ((k, v) :: m)) (.obj ((k, w) :: m'))

/-- Lift `JEquiv` to run results: failing outcomes must carry the same
error, successful outcomes must produce equivalent documents. -/
def exceptEquiv : Except String Doc → Except String Doc → Prop
  | .ok d, .ok d' => JEquiv (.obj d) (.obj d')
  | .error e, .error e' => e = e'
  | _, _ => False

/-- A record with every falsy optional field removed; used to state that
falsy present fields behave exactly like absent ones. -/
def pruneFalsy (vm : VMRecord) : VMRecord :=
  let pr := fun (v : Option Scalar) =>
    match v with
    | some x => if truthy x then some x else none
    | none => none
  { name := vm.name, ssh_host := pr vm.ssh_host, ssh_port := pr vm.ssh_port,
    ssh_user := pr vm.ssh_user, ssh_key := pr vm.ssh_key,
    ssh_options := pr vm.ssh_options, network_address := pr vm.network_address }

/-- A record with no optional connection field present. -/
def hasNoOpt (vm : VMRecord) : Prop :=
  vm.ssh_host = none ∧ vm.ssh_port = none ∧ vm.ssh_user = none ∧
    vm.ssh_key = none ∧ vm.ssh_options = none ∧ vm.network_address = none

/-- The identity enumeration policy. -/
def pid : List String → List String := fun l => l

/-- A record carrying only a name. -/
def vmNamed (n : String) : VMRecord := { name := n }

/-- Claim C1 as stated, at one name: the derived groups are exactly the
ancestor prefixes of the raw slash-separated segments. -/
def c1Stmt (name : String) : Prop :=
  ∀ g, g ∈ nameGroups name ↔ g ∈ c1Expected name

/-- Claim C2 as stated: for every record list, running the two stages in
either order produces the same outcome. -/
def c2Stmt : Prop :=
  ∀ (p : List String → List String) (vms : List VMRecord),
    buildInventory p vms = groupsThenHv p vms

/-- Claim C3's fatality direction as stated: any record whose present
`network_address` is not a valid CIDR makes the whole run fail. -/
def c3Stmt : Prop :=
  ∀ (p : List String → List String) (vms : List VMRecord),
    (∃ vm ∈ vms, ∃ v, vm.network_address = some v ∧ ipInterfaceIpStr v = none) →
      ∃ e, buildInventory p vms = .error e

/-- Claim C4 as stated, for one run: names exactly once in `all.hosts`,
group names exactly once in `all.children`, members at most once. -/
def c4Stmt (p : List String → List String) (vms : List VMRecord) : Prop :=
  ∀ doc, PermPolicy p → buildInventory p vms = .ok doc →
    (∀ nm ∈ namesOf vms, countStr (allHostsOf doc) nm = 1) ∧
    (∀ g ∈ gkeys (groupsOf (namesOf vms)), countStr (allChildrenList doc) g = 1) ∧
    (∀ g ms, (g, ms) ∈ groupsOf (namesOf vms) → ∀ nm, countStr (groupHostsOf doc g) nm ≤ 1)

/-- Claim C10 as stated, for one run with at least one derived group: the
`children` list exists and lists exactly the written group keys, every
group entry is present with a non-empty member list, and every member
contains a separator. -/
def c10Stmt (p : List String → List String) (vms : List VMRecord) : Prop :=
  ∀ doc, PermPolicy p → buildInventory p vms = .ok doc →
    groupsOf (namesOf vms) ≠ [] →
      allChildrenOf doc = some (childrenArr vms) ∧
      (∀ g ms, (g, ms) ∈ groupsOf (namesOf vms) →
        dictGet doc g = some (groupObj (p ms)) ∧ p ms ≠ [] ∧
        ∀ nm ∈ p ms, '/' ∈ nm.toList)

/-- The record list `[{"name": "a"}, {"name": "a"}]` with a duplicated
name, refuting C4 as stated. -/
def dupVms : List VMRecord := [vmNamed "a", vmNamed "a"]

/-- The document the program produces for `dupVms`. -/
def dupDoc : Doc :=
  [("all", .obj [("hosts", .arr [.scalar (.s "a"), .scalar (.s "a")]),
     ("vars", .obj [("ansible_python_interpreter", .scalar (.s "/usr/bin/python3"))])]),
   ("_meta", .obj [("hostvars", .obj [])])]

/-- A record list whose single name derives the group `"all"`, which the
group stage then writes over the `all` entry. -/
def allVms : List VMRecord := [vmNamed "all/x"]

/-- The document the program produces for `allVms`: the group entry for
`"all"` has replaced the original `all` entry, so `children` is gone. -/
def allDoc : Doc :=
  [("all", .obj [("hosts", .arr [.scalar (.s "all/x")])]),
   ("_meta", .obj [("hostvars", .obj [])])]

/-- A record list whose single name derives the group `"_meta"`, making
the two stages collide on the `_meta` entry. -/
def metaVms : List VMRecord := [{ name := "_meta/x", ssh_host := some (.s "h") }]

/-- A one-record list with a two-segment name, deriving the single group
`"a"`. -/
def grpVms : List VMRecord := [vmNamed "a/b"]

/-- The document the program produces for `grpVms`. -/
def grpDoc : Doc :=
  [("all", .obj [("hosts", .arr [.scalar (.s "a/b")]),
     ("vars", .obj [("ansible_python_interpreter", .scalar (.s "/usr/bin/python3"))]),
     ("children", .arr [.scalar (.s "a")])]),
   ("_meta", .obj [("hostvars", .obj [])]),
   ("a", .obj [("hosts", .arr [.scalar (.s "a/b")])])]

/-- The document the program produces for the single group-free record
`{"name": "x"}`. -/
def singleDoc : Doc :=
  [("all", .obj [("hosts", .arr [.scalar (.s "x")]),
     ("vars", .obj [("ansible_python_interpreter", .scalar (.s "/usr/bin/python3"))])]),
   ("_meta", .obj [("hostvars", .obj [])])]

/-- The minimal document required for an empty VM list. -/
def emptyRunDoc : Doc :=
  [("all", .obj [("hosts", .arr []),
     ("vars", .obj [("ansible_python_interpreter", .scalar (.s "/usr/bin/python3"))])]),
   ("_meta", .obj [("hostvars", .obj [])])]

/-! ### Dictionary lemmas -/

theorem dictGet_dictSet_self (m : Doc) (k : String) (v : JVal) :
    dictGet (dictSet m k v) k = some v := by
  induction m with
  | nil => simp [dictSet, dictGet]
  | cons p rest ih =>
    obtain ⟨k0, v0⟩ := p
    by_cases h : k0 = k
    · subst h; simp [dictSet, dictGet]
    · simp [dictSet, dictGet, h, ih]

theorem keysOf_nil : keysOf ([] : Doc) = [] := rfl

theorem keysOf_cons (a : String × JVal) (m : Doc) : keysOf (a :: m) = a.1 :: keysOf m := rfl

theorem dictGet_dictSet_ne (m : Doc) {k k' : String} (v : JVal) (h : k' ≠ k) :
    dictGet (dictSet m k v) k' = dictGet m k' := by
  induction m with
  | nil => simp [dictSet, dictGet, Ne.symm h]
  | cons p rest ih =>
    obtain ⟨k0, v0⟩ := p
    by_cases h0 : k0 = k
    · subst h0; simp [dictSet, dictGet, Ne.symm h]
    · simp only [dictSet, if_neg h0, dictGet, ih]

theorem mem_keysOf_of_dictGet {m : Doc} {k : String} {v : JVal}
    (h : dictGet m k = some v) : k ∈ keysOf m := by
  induction m with
  | nil => simp [dictGet] at h
  | cons p rest ih =>
    obtain ⟨k0, v0⟩ := p
    by_cases h0 : k0 = k
    · subst h0; simp [keysOf_cons]
    · simp only [dictGet, if_neg h0] at h
      simp only [keysOf_cons, List.mem_cons]
      exact Or.inr (ih h)

theorem keysOf_dictSet_of_mem {m : Doc} {k : String} (v : JVal)
    (h : k ∈ keysOf m) : keysOf (dictSet m k v) = keysOf m := by
  induction m with
  | nil => simp [keysOf_nil] at h
  | cons p rest ih =>
    obtain ⟨k0, v0⟩ := p
    by_cases h0 : k0 = k
    · subst h0; simp [dictSet, keysOf_cons]
    · simp only [keysOf_cons, List.mem_cons] at h
      rcases h with h | h
      · exact absurd h.symm h0
      · simp only [dictSet, if_neg h0, keysOf_cons, ih h]

theorem mem_keysOf_dictSet {m : Doc} {k k' : String} (v : JVal)
    (h : k' ∈ keysOf m) : k' ∈ keysOf (dictSet m k v) := by
  induction m with
  | nil => simp [keysOf_nil] at h
  | cons p rest ih =>
    obtain ⟨k0, v0⟩ := p
    simp only [keysOf_cons, List.mem_cons] at h
    by_cases h0 : k0 = k
    · subst h0
      rcases h with h | h
      · subst h; simp [dictSet, keysOf_cons]
      · have hset : dictSet ((k0, v0) :: rest) k0 v = (k0, v) :: rest := by simp [dictSet]
        rw [hset]
        simp only [keysOf_cons, List.mem_cons]
        exact Or.inr h
    · simp only [dictSet, if_neg h0, keysOf_cons, List.mem_cons]
      rcases h with h | h
      · exact Or.inl h
      · exact Or.inr (ih h)

theorem dictSet_dictSet_same (m : Doc) (k : String) (v w : JVal) :
    dictSet (dictSet m k v) k w = dictSet m k w := by
  induction m with
  | nil => simp [dictSet]
  | cons p rest ih =>
    obtain ⟨k0, v0⟩ := p
    by_cases h0 : k0 = k
    · subst h0; simp [dictSet]
    · simp [dictSet, if_neg h0, ih]

theorem dictSet_comm {m : Doc} {k k' : String} {v w : JVal}
    (hmem : k ∈ keysOf m) (hne : k ≠ k') :
    dictSet (dictSet m k v) k' w = dictSet (dictSet m k' w) k v := by
  induction m with
  | nil => simp [keysOf] at hmem
  | cons p rest ih =>
    obtain ⟨k0, v0⟩ := p
    by_cases h0 : k0 = k
    · subst h0
      simp [dictSet, Ne.symm hne, hne]
    · simp only [keysOf_cons, List.mem_cons] at hmem
      rcases hmem with hmem | hmem
      · exact absurd hmem.symm h0
      · by_cases h1 : k0 = k'
        · subst h1; simp [dictSet, if_neg h0, hne.symm, Ne.symm hne]
        · simp [dictSet, if_neg h0, if_neg h1, ih hmem]

theorem dictSet_of_dictGet {m : Doc} {k : String} {v : JVal}
    (h : dictGet m k = some v) : dictSet m k v = m := by
  induction m with
  | nil => simp [dictGet] at h
  | cons p rest ih =>
    obtain ⟨k0, v0⟩ := p
    by_cases h0 : k0 = k
    · subst h0
      simp [dictGet] at h
      simp [dictSet, h]
    · simp only [dictGet, if_neg h0] at h
      simp [dictSet, if_neg h0, ih h]

/-! ### Path splitting lemmas -/

theorem splitChar_ne_nil (c : Char) (l : List Char) : splitChar c l ≠ [] := by
  induction l with
  | nil => simp [splitChar]
  | cons x xs ih =>
    by_cases h : x = c
    · simp [splitChar, h]
    · simp only [splitChar, if_neg h]
      cases hs : splitChar c xs with
      | nil => simp
      | cons piece rest => simp

theorem splitChar_of_not_mem {c : Char} {l : List Char} (h : c ∉ l) :
    splitChar c l = [l] := by
  induction l with
  | nil => rfl
  | cons x xs ih =>
    simp only [List.mem_cons] at h
    push_neg at h
    have hx : ¬x = c := fun hh => h.1 hh.symm
    simp only [splitChar, if_neg hx, ih h.2]

theorem nameGroups_slash {name g : String} (h : g ∈ nameGroups name) :
    '/' ∈ name.toList := by
  by_contra hn
  have hs : splitChar '/' name.toList = [name.toList] := splitChar_of_not_mem hn
  have hlen : (pathComps name).length ≤ 1 := by
    unfold pathComps
    rw [hs]
    exact le_trans (List.length_filter_le _ _) (by simp)
  have h0 : (pathComps name).length - 1 = 0 := by omega
  unfold nameGroups at h
  rw [h0] at h
  simp at h

/-! ### Group map invariants -/

theorem addMember_entry {names : List String} {gs : List (String × List String)}
    {g n : String} (hgs : ∀ e ∈ gs, entryInv names e) (hn : n ∈ names)
    (hg : g ∈ nameGroups n) : ∀ e ∈ addMember gs g n, entryInv names e := by
  induction gs with
  | nil =>
    intro e he
    simp only [addMember, List.mem_singleton] at he
    subst he
    refine ⟨by simp, by simp, ?_⟩
    intro nm hnm
    simp only [List.mem_singleton] at hnm
    subst hnm
    exact ⟨hn, hg⟩
  | cons q rest ih =>
    obtain ⟨g0, ms0⟩ := q
    intro e he
    by_cases h0 : g0 = g
    · subst h0
      simp only [addMember, if_pos rfl] at he
      rcases List.mem_cons.mp he with he | he
      · subst he
        obtain ⟨hne, hnd, hmem⟩ := hgs (g0, ms0) (by simp)
        by_cases hin : n ∈ ms0
        · simpa [hin] using ⟨hne, hnd, hmem⟩
        · simp only [if_neg hin]
          refine ⟨by simp, ?_, ?_⟩
          · rw [List.nodup_append]
            exact ⟨hnd, by simp, fun a ha hb => by
              simp only [List.mem_singleton] at hb; subst hb; exact hin ha⟩
          · intro nm hnm
            rcases List.mem_append.mp hnm with hnm | hnm
            · exact hmem nm hnm
            · simp only [List.mem_singleton] at hnm
              subst hnm
              exact ⟨hn, hg⟩
      · exact hgs e (by simp [he])
    · simp only [addMember, if_neg h0] at he
      rcases List.mem_cons.mp he with he | he
      · subst he; exact hgs _ (by simp)
      · exact ih (fun e' he' => hgs e' (by simp [he'])) e he

theorem foldl_addMember_entry {names : List String} {n : String} :
    ∀ (gl : List String) (gs : List (String × List String)),
      (∀ e ∈ gs, entryInv names e) → (∀ g ∈ gl, g ∈ nameGroups n) → n ∈ names →
        ∀ e ∈ gl.foldl (fun a g => addMember a g n) gs, entryInv names e := by
  intro gl
  induction gl with
  | nil => intro gs hgs _ _ e he; exact hgs e he
  | cons g0 tl ih =>
    intro gs hgs hgl hn e he
    simp only [List.foldl_cons] at he
    exact ih _ (addMember_entry hgs hn (hgl g0 (by simp)))
      (fun g hg => hgl g (by simp [hg])) hn e he

theorem addAll_entry {names : List String} {gs : List (String × List String)}
    {n : String} (hgs : ∀ e ∈ gs, entryInv names e) (hn : n ∈ names) :
    ∀ e ∈ addAll gs n, entryInv names e :=
  foldl_addMember_entry (nameGroups n) gs hgs (fun _ hg => hg) hn

theorem foldl_addAll_entry {names : List String} :
    ∀ (pre : List String) (gs : List (String × List String)),
      (∀ e ∈ gs, entryInv names e) → (∀ nm ∈ pre, nm ∈ names) →
        ∀ e ∈ pre.foldl addAll gs, entryInv names e := by
  intro pre
  induction pre with
  | nil => intro gs hgs _ e he; exact hgs e he
  | cons n tl ih =>
    intro gs hgs hpre e he
    simp only [List.foldl_cons] at he
    exact ih _ (addAll_entry hgs (hpre n (by simp))) (fun nm hnm => hpre nm (by simp [hnm])) e he

theorem groupsOf_entry {names : List String} :
    ∀ e ∈ groupsOf names, entryInv names e :=
  foldl_addAll_entry names [] (by simp) (fun _ h => h)

theorem gkeys_addMember (gs : List (String × List String)) (g n : String) :
    gkeys (addMember gs g n) = if g ∈ gkeys gs then gkeys gs else gkeys gs ++ [g] := by
  induction gs with
  | nil => simp [addMember, gkeys]
  | cons q rest ih =>
    obtain ⟨g0, ms0⟩ := q
    by_cases h0 : g0 = g
    · subst h0; simp [addMember, gkeys]
    · simp only [addMember, if_neg h0, gkeys, List.map_cons] at ih ⊢
      rw [ih]
      by_cases hm : g ∈ List.map Prod.fst rest
      · simp [hm, Ne.symm h0]
      · simp [hm, Ne.symm h0]

theorem gkeys_addMember_nodup {gs : List (String × List String)} {g n : String}
    (h : (gkeys gs).Nodup) : (gkeys (addMember gs g n)).Nodup := by
  rw [gkeys_addMember]
  by_cases hm : g ∈ gkeys gs
  · simpa [hm] using h
  · simp only [if_neg hm]
    rw [List.nodup_append]
    exact ⟨h, by simp, fun a ha hb => by
      simp only [List.mem_singleton] at hb; subst hb; exact hm ha⟩

theorem gkeys_foldl_addMember_nodup {n : String} :
    ∀ (gl : List String) (gs : List (String × List String)),
      (gkeys gs).Nodup → (gkeys (gl.foldl (fun a g => addMember a g n) gs)).Nodup := by
  intro gl
  induction gl with
  | nil => intro gs h; exact h
  | cons g0 tl ih =>
    intro gs h
    simp only [List.foldl_cons]
    exact ih _ (gkeys_addMember_nodup h)

theorem gkeys_groupsOf_nodup (names : List String) : (gkeys (groupsOf names)).Nodup := by
  suffices h : ∀ (pre : List String) (gs : List (String × List String)),
      (gkeys gs).Nodup → (gkeys (pre.foldl addAll gs)).Nodup by
    exact h names [] (by simp [gkeys])
  intro pre
  induction pre with
  | nil => intro gs h; exact h
  | cons n tl ih =>
    intro gs h
    simp only [List.foldl_cons]
    exact ih _ (gkeys_foldl_addMember_nodup (nameGroups n) gs h)

theorem addMember_self (gs : List (String × List String)) (g n : String) :
    ∃ ms, (g, ms) ∈ addMember gs g n ∧ n ∈ ms := by
  induction gs with
  | nil => exact ⟨[n], by simp [addMember], by simp⟩
  | cons q rest ih =>
    obtain ⟨g0, ms0⟩ := q
    by_cases h0 : g0 = g
    · subst h0
      by_cases hin : n ∈ ms0
      · exact ⟨ms0, by simp [addMember, hin], hin⟩
      · exact ⟨ms0 ++ [n], by simp [addMember, hin], by simp⟩
    · obtain ⟨ms, hms, hn⟩ := ih
      exact ⟨ms, by simp [addMember, if_neg h0, hms], hn⟩

theorem addMember_persist {gs : List (String × List String)} {g' nm : String}
    (g n : String) (h : ∃ ms, (g', ms) ∈ gs ∧ nm ∈ ms) :
    ∃ ms, (g', ms) ∈ addMember gs g n ∧ nm ∈ ms := by
  induction gs with
  | nil => simp at h
  | cons q rest ih =>
    obtain ⟨g0, ms0⟩ := q
    obtain ⟨ms, hms, hnm⟩ := h
    by_cases h0 : g0 = g
    · subst h0
      rcases List.mem_cons.mp hms with hms | hms
      · have he1 : g' = g0 := congrArg Prod.fst hms
        have he2 : ms = ms0 := congrArg Prod.snd hms
        subst he2
        refine ⟨if n ∈ ms then ms else ms ++ [n], by simp [addMember, he1], ?_⟩
        by_cases hin : n ∈ ms <;> simp [hin, hnm]
      · exact ⟨ms, by simp [addMember, hms], hnm⟩
    · rcases List.mem_cons.mp hms with hms | hms
      · exact ⟨ms, by simp [addMember, if_neg h0, hms], hnm⟩
      · obtain ⟨ms', hms', hnm'⟩ := ih ⟨ms, hms, hnm⟩
        exact ⟨ms', by simp [addMember, if_neg h0, hms'], hnm'⟩

theorem foldl_addMember_persist {g' nm n : String} :
    ∀ (gl : List String) (gs : List (String × List String)),
      (∃ ms, (g', ms) ∈ gs ∧ nm ∈ ms) →
        ∃ ms, (g', ms) ∈ gl.foldl (fun a g => addMember a g n) gs ∧ nm ∈ ms := by
  intro gl
  induction gl with
  | nil => intro gs h; exact h
  | cons g0 tl ih =>
    intro gs h
    simp only [List.foldl_cons]
    exact ih _ (addMember_persist g0 n h)

theorem addAll_persist {g' nm : String} {gs : List (String × List String)}
    (n : String) (h : ∃ ms, (g', ms) ∈ gs ∧ nm ∈ ms) :
    ∃ ms, (g', ms) ∈ addAll gs n ∧ nm ∈ ms :=
  foldl_addMember_persist (nameGroups n) gs h

theorem foldl_addMember_self {n : String} :
    ∀ (gl : List String) (gs : List (String × List String)) (g : String), g ∈ gl →
      ∃ ms, (g, ms) ∈ gl.foldl (fun a g' => addMember a g' n) gs ∧ n ∈ ms := by
  intro gl
  induction gl with
  | nil => intro gs g h; simp at h
  | cons g0 tl ih =>
    intro gs g h
    simp only [List.foldl_cons]
    rcases List.mem_cons.mp h with h | h
    · subst h
      exact foldl_addMember_persist tl _ (addMember_self gs g n)
    · exact ih _ g h

theorem groupsOf_complete {names : List String} {nm g : String}
    (hnm : nm ∈ names) (hg : g ∈ nameGroups nm) :
    ∃ ms, (g, ms) ∈ groupsOf names ∧ nm ∈ ms := by
  suffices h : ∀ (pre : List String) (gs : List (String × List String)),
      ((nm ∈ pre ∧ g ∈ nameGroups nm) ∨ ∃ ms, (g, ms) ∈ gs ∧ nm ∈ ms) →
        ∃ ms, (g, ms) ∈ pre.foldl addAll gs ∧ nm ∈ ms by
    exact h names [] (Or.inl ⟨hnm, hg⟩)
  intro pre
  induction pre with
  | nil =>
    intro gs h
    rcases h with ⟨h1, _⟩ | h
    · simp at h1
    · exact h
  | cons n0 tl ih =>
    intro gs h
    simp only [List.foldl_cons]
    rcases h with ⟨h1, h2⟩ | h
    · rcases List.mem_cons.mp h1 with h1 | h1
      · subst h1
        exact ih _ (Or.inr (foldl_addMember_self (nameGroups nm) gs g h2))
      · exact ih _ (Or.inl ⟨h1, h2⟩)
    · exact ih _ (Or.inr (addAll_persist n0 h))

/-! ### Group writing lemmas -/

theorem writeGroups_get_notmem (p : List String → List String) (k : String) :
    ∀ (gs : List (String × List String)) (d : Doc), k ∉ gkeys gs →
      dictGet (writeGroups p gs d) k = dictGet d k := by
  intro gs
  induction gs with
  | nil => intro d _; rfl
  | cons q rest ih =>
    obtain ⟨g, ms⟩ := q
    intro d h
    simp only [gkeys, List.map_cons, List.mem_cons] at h
    push_neg at h
    simp only [writeGroups]
    rw [ih _ h.2, dictGet_dictSet_ne _ _ h.1]

theorem writeGroups_get_mem (p : List String → List String) :
    ∀ (gs : List (String × List String)) (d : Doc) (g : String) (ms : List String),
      (gkeys gs).Nodup → (g, ms) ∈ gs →
        dictGet (writeGroups p gs d) g = some (groupObj (p ms)) := by
  intro gs
  induction gs with
  | nil => intro d g ms _ h; simp at h
  | cons q rest ih =>
    obtain ⟨g0, ms0⟩ := q
    intro d g ms hnd hmem
    simp only [gkeys, List.map_cons, List.nodup_cons] at hnd
    rcases List.mem_cons.mp hmem with hmem | hmem
    · have hg : g = g0 := congrArg Prod.fst hmem
      have hms : ms = ms0 := congrArg Prod.snd hmem
      subst hg; subst hms
      simp only [writeGroups]
      rw [writeGroups_get_notmem p g rest _ (by simpa [gkeys] using hnd.1)]
      exact dictGet_dictSet_self d g (groupObj (p ms))
    · simp only [writeGroups]
      exact ih _ g ms hnd.2 hmem

theorem mem_keysOf_writeGroups (p : List String → List String) (k : String) :
    ∀ (gs : List (String × List String)) (d : Doc), k ∈ keysOf d →
      k ∈ keysOf (writeGroups p gs d) := by
  intro gs
  induction gs with
  | nil => intro d h; exact h
  | cons q rest ih =>
    obtain ⟨g, ms⟩ := q
    intro d h
    simp only [writeGroups]
    exact ih _ (mem_keysOf_dictSet _ h)

theorem writeGroups_dictSet_comm (p : List String → List String) (M : JVal) :
    ∀ (gs : List (String × List String)) (d : Doc),
      "_meta" ∈ keysOf d → "_meta" ∉ gkeys gs →
        writeGroups p gs (dictSet d "_meta" M) = dictSet (writeGroups p gs d) "_meta" M := by
  intro gs
  induction gs with
  | nil => intro d _ _; rfl
  | cons q rest ih =>
    obtain ⟨g, ms⟩ := q
    intro d hmem hnot
    simp only [gkeys, List.map_cons, List.mem_cons] at hnot
    push_neg at hnot
    simp only [writeGroups]
    rw [dictSet_comm hmem hnot.1]
    exact ih _ (mem_keysOf_dictSet _ hmem) hnot.2

/-! ### Host-variable stage characterisation -/

theorem hvStage_eq :
    ∀ (vms : List VMRecord) (doc : Doc) (m h : Doc),
      dictGet doc "_meta" = some (.obj m) → dictGet m "hostvars" = some (.obj h) →
        hvStage vms doc = (hvFold vms h).map (fun h' =>
          dictSet doc "_meta" (.obj (dictSet m "hostvars" (.obj h')))) := by
  intro vms
  induction vms with
  | nil =>
    intro doc m h hm hh
    have h1 : dictSet m "hostvars" (JVal.obj h) = m := dictSet_of_dictGet hh
    have h2 : dictSet doc "_meta" (JVal.obj m) = doc := dictSet_of_dictGet hm
    simp [hvStage, hvFold, Except.map, h1, h2]
  | cons vm rest ih =>
    intro doc m h hm hh
    simp only [hvStage, hvFold]
    cases hv : hostvarsOf vm with
    | error e => simp [Except.map]
    | ok l =>
      by_cases hl : l.isEmpty
      · simp only [if_pos hl]
        exact ih doc m h hm hh
      · simp only [if_neg hl]
        have hset : setMetaHostvar doc vm.name (.obj l) =
            .ok (dictSet doc "_meta" (.obj (dictSet m "hostvars"
              (.obj (dictSet h vm.name (.obj l)))))) := by
          simp [setMetaHostvar, hm, hh]
        rw [hset]
        show hvStage rest _ = _
        have hrec := ih (dictSet doc "_meta" (.obj (dictSet m "hostvars"
            (.obj (dictSet h vm.name (.obj l))))))
          (dictSet m "hostvars" (.obj (dictSet h vm.name (.obj l))))
          (dictSet h vm.name (.obj l))
          (dictGet_dictSet_self _ _ _) (dictGet_dictSet_self _ _ _)
        rw [hrec]
        have hfun : (fun h' => dictSet (dictSet doc "_meta" (.obj (dictSet m "hostvars"
                (.obj (dictSet h vm.name (.obj l)))))) "_meta"
              (.obj (dictSet (dictSet m "hostvars" (.obj (dictSet h vm.name (.obj l))))
                "hostvars" (.obj h')))) =
            (fun h' => dictSet doc "_meta" (.obj (dictSet m "hostvars" (.obj h')))) := by
          funext h'
          rw [dictSet_dictSet_same, dictSet_dictSet_same]
        rw [hfun]

theorem mem_keysOf_dictSet_elim {m : Doc} {k k' : String} {v : JVal}
    (h : k' ∈ keysOf (dictSet m k v)) : k' ∈ keysOf m ∨ k' = k := by
  induction m with
  | nil =>
    simp only [dictSet, keysOf_cons, keysOf_nil, List.mem_singleton] at h
    exact Or.inr h
  | cons q rest ih =>
    obtain ⟨k0, v0⟩ := q
    by_cases h0 : k0 = k
    · subst h0
      have hset : dictSet ((k0, v0) :: rest) k0 v = (k0, v) :: rest := by simp [dictSet]
      rw [hset] at h
      simp only [keysOf_cons, List.mem_cons] at h
      rcases h with h | h
      · exact Or.inr h
      · exact Or.inl (by simp [keysOf_cons, h])
    · simp only [dictSet, if_neg h0, keysOf_cons, List.mem_cons] at h
      rcases h with h | h
      · exact Or.inl (by simp [keysOf_cons, h])
      · rcases ih h with h | h
        · exact Or.inl (by simp [keysOf_cons, h])
        · exact Or.inr h

theorem hvStage_err {vms : List VMRecord}
    (h : ∃ vm ∈ vms, ∃ e, hostvarsOf vm = .error e) :
    ∀ doc, ∃ e, hvStage vms doc = .error e := by
  induction vms with
  | nil => simp at h
  | cons vm rest ih =>
    intro doc
    obtain ⟨vm', hvm', e', he'⟩ := h
    rcases List.mem_cons.mp hvm' with hvm' | hvm'
    · subst hvm'
      exact ⟨e', by simp [hvStage, he']⟩
    · cases hv : hostvarsOf vm with
      | error e => exact ⟨e, by simp [hvStage, hv]⟩
      | ok l =>
        by_cases hl : l.isEmpty
        · obtain ⟨e, he⟩ := ih ⟨vm', hvm', e', he'⟩ doc
          exact ⟨e, by simp [hvStage, hv, hl, he]⟩
        · cases hset : setMetaHostvar doc vm.name (.obj l) with
          | error e => exact ⟨e, by simp [hvStage, hv, hl, hset]⟩
          | ok d =>
            obtain ⟨e, he⟩ := ih ⟨vm', hvm', e', he'⟩ d
            exact ⟨e, by simp [hvStage, hv, hl, hset, he]⟩

theorem hvFold_ok {vms : List VMRecord}
    (h : ∀ vm ∈ vms, ∃ l, hostvarsOf vm = .ok l) :
    ∀ hAcc, ∃ h', hvFold vms hAcc = .ok h' := by
  induction vms with
  | nil => intro hAcc; exact ⟨hAcc, rfl⟩
  | cons vm rest ih =>
    intro hAcc
    obtain ⟨l, hl⟩ := h vm (by simp)
    have hrest : ∀ vm' ∈ rest, ∃ l', hostvarsOf vm' = .ok l' :=
      fun vm' hm => h vm' (by simp [hm])
    by_cases hemp : l.isEmpty
    · obtain ⟨h', hh⟩ := ih hrest hAcc
      exact ⟨h', by simp [hvFold, hl, hemp, hh]⟩
    · obtain ⟨h', hh⟩ := ih hrest (dictSet hAcc vm.name (.obj l))
      exact ⟨h', by simp [hvFold, hl, hemp, hh]⟩

theorem hvFold_keys {vms : List VMRecord} :
    ∀ (hAcc h' : Doc), hvFold vms hAcc = .ok h' → ∀ nm ∈ keysOf h',
      nm ∈ keysOf hAcc ∨ ∃ vm ∈ vms, vm.name = nm ∧ hostvarsOf vm ≠ .ok [] := by
  induction vms with
  | nil =>
    intro hAcc h' hf nm hnm
    simp only [hvFold, Except.ok.injEq] at hf
    subst hf
    exact Or.inl hnm
  | cons vm rest ih =>
    intro hAcc h' hf nm hnm
    cases hv : hostvarsOf vm with
    | error e => simp only [hvFold, hv] at hf; exact absurd hf (by simp)
    | ok l =>
      simp only [hvFold, hv] at hf
      by_cases hemp : l.isEmpty
      · rw [if_pos hemp] at hf
        rcases ih hAcc h' hf nm hnm with h | ⟨vm', h1, h2, h3⟩
        · exact Or.inl h
        · exact Or.inr ⟨vm', by simp [h1], h2, h3⟩
      · rw [if_neg hemp] at hf
        rcases ih _ h' hf nm hnm with h | ⟨vm', h1, h2, h3⟩
        · rcases mem_keysOf_dictSet_elim h with h | h
          · exact Or.inl h
          · refine Or.inr ⟨vm, by simp, h.symm ▸ rfl, ?_⟩
            intro hEq
            rw [hv] at hEq
            have : l = [] := by simpa using hEq
            simp [this] at hemp
        · exact Or.inr ⟨vm', by simp [h1], h2, h3⟩

/-! ### Shape of a successful run -/

theorem build_ok_shape {p : List String → List String} {vms : List VMRecord} {doc : Doc}
    (hb : buildInventory p vms = .ok doc) :
    ∃ h', hvFold vms [] = .ok h' ∧
      ((groupsOf (namesOf vms) = [] ∧ doc = [allPair0 vms, metaPair h']) ∨
        (groupsOf (namesOf vms) ≠ [] ∧
          doc = writeGroups p (groupsOf (namesOf vms)) [allPair1 vms, metaPair h'])) := by
  unfold buildInventory at hb
  rw [hvStage_eq vms (initDoc vms) [("hostvars", .obj [])] [] rfl rfl] at hb
  cases hf : hvFold vms [] with
  | error e => rw [hf] at hb; simp [Except.map, Except.bind] at hb
  | ok h' =>
    rw [hf] at hb
    simp only [Except.map, Except.bind] at hb
    have hD : dictSet (initDoc vms) "_meta"
        (.obj (dictSet [("hostvars", .obj [])] "hostvars" (.obj h'))) =
        [allPair0 vms, metaPair h'] := by
      simp [dictSet, initDoc, allPair0, metaPair, hostsArr, varsObj]
    rw [hD] at hb
    refine ⟨h', rfl, ?_⟩
    by_cases hgs : groupsOf (namesOf vms) = []
    · left
      simp only [groupsStage, hgs, List.isEmpty_nil, if_pos, Except.ok.injEq] at hb
      exact ⟨hgs, hb.symm⟩
    · right
      obtain ⟨q, gst, hq⟩ := List.exists_cons_of_ne_nil hgs
      refine ⟨hgs, ?_⟩
      rw [hq]
      simp only [groupsStage, hq, List.isEmpty_cons, Bool.false_eq_true, if_false] at hb
      have hget : dictGet [allPair0 vms, metaPair h'] "all" =
          some (.obj [("hosts", hostsArr vms), ("vars", varsObj)]) := by
        simp [dictGet, allPair0, metaPair]
      simp only [hget] at hb
      have hch : dictSet [("hosts", hostsArr vms), ("vars", varsObj)] "children"
          (.arr ((gkeys (q :: gst)).map (fun g => .scalar (.s g)))) =
          [("hosts", hostsArr vms), ("vars", varsObj),
            ("children", .arr ((gkeys (q :: gst)).map (fun g => .scalar (.s g))))] := by
        simp [dictSet]
      have hsetall : dictSet [allPair0 vms, metaPair h'] "all"
          (.obj [("hosts", hostsArr vms), ("vars", varsObj),
            ("children", .arr ((gkeys (q :: gst)).map (fun g => .scalar (.s g))))]) =
          [("all", .obj [("hosts", hostsArr vms), ("vars", varsObj),
            ("children", .arr ((gkeys (q :: gst)).map (fun g => .scalar (.s g))))]),
            metaPair h'] := by
        simp [dictSet, allPair0, metaPair]
      simp only [gkeys] at hch hsetall
      rw [hch, hsetall] at hb
      have hdoc := hb
      simp only [Except.ok.injEq] at hdoc
      rw [← hdoc]
      have hall1 : allPair1 vms = ("all", .obj [("hosts", hostsArr vms), ("vars", varsObj),
          ("children", .arr (((q :: gst).map Prod.fst).map (fun g => .scalar (.s g))))]) := by
        simp [allPair1, childrenArr, gkeys, hq]
      rw [hall1]

/-! ### Host-variable extractor lemmas -/

theorem keysOf_append (a b : Doc) : keysOf (a ++ b) = keysOf a ++ keysOf b := by
  simp [keysOf]

theorem mem_keys_optVar {k k' : String} {v : Option Scalar}
    (h : k' ∈ keysOf (optVar k v)) : k' = k := by
  cases v with
  | none => simp [optVar, keysOf_nil] at h
  | some x =>
    by_cases ht : truthy x
    · simpa [optVar, ht, keysOf] using h
    · simp [optVar, ht, keysOf_nil] at h

theorem hostvarsOf_ok_elim {vm : VMRecord} {hv : Doc} (h : hostvarsOf vm = .ok hv) :
    ∃ np, netPart vm.network_address = .ok np ∧
      hv = optVar "ansible_host" vm.ssh_host ++ optVar "ansible_port" vm.ssh_port ++
        optVar "ansible_user" vm.ssh_user ++
        optVar "ansible_ssh_private_key_file" vm.ssh_key ++
        optVar "ansible_ssh_common_args" vm.ssh_options ++ np := by
  unfold hostvarsOf at h
  cases hn : netPart vm.network_address with
  | error e => rw [hn] at h; simp [Except.map] at h
  | ok np =>
    rw [hn] at h
    simp only [Except.map, Except.ok.injEq] at h
    exact ⟨np, rfl, h.symm⟩

theorem mem_keys_netPart {v : Option Scalar} {np : Doc} {k' : String}
    (h : netPart v = .ok np) (hk : k' ∈ keysOf np) :
    k' = "network_cidr" ∨ k' = "network_address" := by
  cases v with
  | none =>
    simp only [netPart, Except.ok.injEq] at h
    rw [← h] at hk
    simp [keysOf_nil] at hk
  | some x =>
    by_cases ht : truthy x
    · simp only [netPart, if_pos ht] at h
      cases hip : ipInterfaceIpStr x with
      | none => rw [hip] at h; simp at h
      | some addr =>
        rw [hip] at h
        simp only [Except.ok.injEq] at h
        rw [← h] at hk
        simpa [keysOf] using hk
    · simp only [netPart, if_neg ht, Except.ok.injEq] at h
      rw [← h] at hk
      simp [keysOf_nil] at hk

theorem hostvarsOf_hasNoOpt {vm : VMRecord} (h : hasNoOpt vm) :
    hostvarsOf vm = .ok [] := by
  obtain ⟨h1, h2, h3, h4, h5, h6⟩ := h
  simp [hostvarsOf, h1, h2, h3, h4, h5, h6, optVar, netPart, Except.map]

/-! ### Claim C5 -/

/-- Claim C5: a record whose only present optional field is
`network_address = "10.0.0.5/24"` gets exactly the two keys
`network_cidr` (the verbatim CIDR) and `network_address` (the address
component `"10.0.0.5"`), and nothing else. -/
theorem c5_network_only (nm : String) :
    hostvarsOf { name := nm, network_address := some (.s "10.0.0.5/24") } =
      .ok [("network_cidr", .scalar (.s "10.0.0.5/24")),
        ("network_address", .scalar (.s "10.0.0.5"))] := by
  rfl

/-! ### Claim C9 -/

theorem optVar_prune (k : String) (v : Option Scalar) :
    optVar k (match v with
      | some x => if truthy x then some x else none
      | none => none) = optVar k v := by
  cases v with
  | none => rfl
  | some x =>
    by_cases ht : truthy x
    · simp [ht]
    · simp [optVar, ht]

theorem netPart_prune (v : Option Scalar) :
    netPart (match v with
      | some x => if truthy x then some x else none
      | none => none) = netPart v := by
  cases v with
  | none => rfl
  | some x =>
    by_cases ht : truthy x
    · simp [ht]
    · simp [netPart, ht]

/-- Claim C9: a present optional field with a falsy value (empty string,
0, null, false) contributes nothing: the extractor behaves exactly as if
every falsy field were absent, so a falsy `network_address` is never
parsed as a CIDR either. -/
theorem c9_falsy_like_absent (vm : VMRecord) :
    hostvarsOf vm = hostvarsOf (pruneFalsy vm) := by
  unfold hostvarsOf pruneFalsy
  rw [optVar_prune, optVar_prune, optVar_prune, optVar_prune, optVar_prune, netPart_prune]

theorem mem_keys_hostvars {vm : VMRecord} {hv : Doc} {k' : String}
    (h : hostvarsOf vm = .ok hv) (hk : k' ∈ keysOf hv) :
    (k' = "ansible_host" ∧ vm.ssh_host ≠ none) ∨
    (k' = "ansible_port" ∧ vm.ssh_port ≠ none) ∨
    (k' = "ansible_user" ∧ vm.ssh_user ≠ none) ∨
    (k' = "ansible_ssh_private_key_file" ∧ vm.ssh_key ≠ none) ∨
    (k' = "ansible_ssh_common_args" ∧ vm.ssh_options ≠ none) ∨
    ((k' = "network_cidr" ∨ k' = "network_address") ∧ vm.network_address ≠ none) := by
  obtain ⟨np, hnp, hhv⟩ := hostvarsOf_ok_elim h
  rw [hhv] at hk
  simp only [keysOf_append, List.mem_append] at hk
  rcases hk with ((((hk | hk) | hk) | hk) | hk) | hk
  · exact Or.inl ⟨mem_keys_optVar hk, by
      intro hn; rw [hn] at hk; simp [optVar, keysOf_nil] at hk⟩
  · exact Or.inr (Or.inl ⟨mem_keys_optVar hk, by
      intro hn; rw [hn] at hk; simp [optVar, keysOf_nil] at hk⟩)
  · exact Or.inr (Or.inr (Or.inl ⟨mem_keys_optVar hk, by
      intro hn; rw [hn] at hk; simp [optVar, keysOf_nil] at hk⟩))
  · exact Or.inr (Or.inr (Or.inr (Or.inl ⟨mem_keys_optVar hk, by
      intro hn; rw [hn] at hk; simp [optVar, keysOf_nil] at hk⟩)))
  · exact Or.inr (Or.inr (Or.inr (Or.inr (Or.inl ⟨mem_keys_optVar hk, by
      intro hn; rw [hn] at hk; simp [optVar, keysOf_nil] at hk⟩))))
  · refine Or.inr (Or.inr (Or.inr (Or.inr (Or.inr ⟨mem_keys_netPart hnp hk, ?_⟩))))
    intro hn
    rw [hn] at hnp
    simp only [netPart, Except.ok.injEq] at hnp
    rw [← hnp] at hk
    simp [keysOf_nil] at hk

/-! ### Claim C7 -/

/-- Claim C7: a record with none of the optional fields present gets no
entry under `_meta.hostvars`, and in general an absent source field
produces an absent HostVars key rather than a null or empty placeholder. -/
theorem c7_absent_fields :
    (∀ (p : List String → List String) (vms : List VMRecord) (doc : Doc) (vmx : VMRecord),
      buildInventory p vms = .ok doc → (namesOf vms).Nodup → vmx ∈ vms → hasNoOpt vmx →
        vmx.name ∉ hostvarsKeysOf doc) ∧
    (∀ (vm : VMRecord) (hv : Doc), hostvarsOf vm = .ok hv →
      (vm.ssh_host = none → "ansible_host" ∉ keysOf hv) ∧
      (vm.ssh_port = none → "ansible_port" ∉ keysOf hv) ∧
      (vm.ssh_user = none → "ansible_user" ∉ keysOf hv) ∧
      (vm.ssh_key = none → "ansible_ssh_private_key_file" ∉ keysOf hv) ∧
      (vm.ssh_options = none → "ansible_ssh_common_args" ∉ keysOf hv) ∧
      (vm.network_address = none →
        "network_cidr" ∉ keysOf hv ∧ "network_address" ∉ keysOf hv)) := by
  constructor
  · intro p vms doc vmx hb hnd hmem hno hin
    obtain ⟨h', hf, hshape⟩ := build_ok_shape hb
    have hkeys : vmx.name ∈ keysOf h' → False := by
      intro hk
      rcases hvFold_keys [] h' hf vmx.name hk with hk | ⟨vm, hvm, hname, hne⟩
      · simp [keysOf_nil] at hk
      · have heq : vm = vmx := List.inj_on_of_nodup_map hnd hvm hmem hname
        rw [heq, hostvarsOf_hasNoOpt hno] at hne
        exact hne rfl
    rcases hshape with ⟨hgs, hdoc⟩ | ⟨hgs, hdoc⟩
    · have hform : hostvarsKeysOf doc = keysOf h' := by
        rw [hdoc]
        simp [hostvarsKeysOf, dictGet, allPair0, metaPair]
      rw [hform] at hin
      exact hkeys hin
    · by_cases hmg : "_meta" ∈ gkeys (groupsOf (namesOf vms))
      · obtain ⟨e, heG, hefst⟩ := List.mem_map.mp hmg
        have hent : ("_meta", e.2) ∈ groupsOf (namesOf vms) := by
          rw [← hefst]
          exact heG
        have hget : dictGet doc "_meta" = some (groupObj (p e.2)) := by
          rw [hdoc]
          exact writeGroups_get_mem p _ _ _ _ (gkeys_groupsOf_nodup (namesOf vms)) hent
        have hform : hostvarsKeysOf doc = [] := by
          simp [hostvarsKeysOf, hget, groupObj, dictGet]
        rw [hform] at hin
        simp at hin
      · have hget : dictGet doc "_meta" = some (.obj [("hostvars", .obj h')]) := by
          rw [hdoc, writeGroups_get_notmem p _ _ _ hmg]
          simp [dictGet, allPair1, metaPair]
        have hform : hostvarsKeysOf doc = keysOf h' := by
          simp [hostvarsKeysOf, hget, dictGet]
        rw [hform] at hin
        exact hkeys hin
  · intro vm hv h
    refine ⟨?_, ?_, ?_, ?_, ?_, ?_⟩
    · intro hnone hmem
      rcases mem_keys_hostvars h hmem with ⟨he, hne⟩ | ⟨he, hne⟩ | ⟨he, hne⟩ |
        ⟨he, hne⟩ | ⟨he, hne⟩ | ⟨he, hne⟩
      · exact hne hnone
      all_goals exact absurd he (by decide)
    · intro hnone hmem
      rcases mem_keys_hostvars h hmem with ⟨he, hne⟩ | ⟨he, hne⟩ | ⟨he, hne⟩ |
        ⟨he, hne⟩ | ⟨he, hne⟩ | ⟨he, hne⟩
      · exact absurd he (by decide)
      · exact hne hnone
      all_goals exact absurd he (by decide)
    · intro hnone hmem
      rcases mem_keys_hostvars h hmem with ⟨he, hne⟩ | ⟨he, hne⟩ | ⟨he, hne⟩ |
        ⟨he, hne⟩ | ⟨he, hne⟩ | ⟨he, hne⟩
      · exact absurd he (by decide)
      · exact absurd he (by decide)
      · exact hne hnone
      all_goals exact absurd he (by decide)
    · intro hnone hmem
      rcases mem_keys_hostvars h hmem with ⟨he, hne⟩ | ⟨he, hne⟩ | ⟨he, hne⟩ |
        ⟨he, hne⟩ | ⟨he, hne⟩ | ⟨he, hne⟩
      · exact absurd he (by decide)
      · exact absurd he (by decide)
      · exact absurd he (by decide)
      · exact hne hnone
      all_goals exact absurd he (by decide)
    · intro hnone hmem
      rcases mem_keys_hostvars h hmem with ⟨he, hne⟩ | ⟨he, hne⟩ | ⟨he, hne⟩ |
        ⟨he, hne⟩ | ⟨he, hne⟩ | ⟨he, hne⟩
      · exact absurd he (by decide)
      · exact absurd he (by decide)
      · exact absurd he (by decide)
      · exact absurd he (by decide)
      · exact hne hnone
      · rcases he with he | he <;> exact absurd he (by decide)
    · intro hnone
      constructor
      · intro hmem
        rcases mem_keys_hostvars h hmem with ⟨he, hne⟩ | ⟨he, hne⟩ | ⟨he, hne⟩ |
          ⟨he, hne⟩ | ⟨he, hne⟩ | ⟨he, hne⟩
        · exact absurd he (by decide)
        · exact absurd he (by decide)
        · exact absurd he (by decide)
        · exact absurd he (by decide)
        · exact absurd he (by decide)
        · exact hne hnone
      · intro hmem
        rcases mem_keys_hostvars h hmem with ⟨he, hne⟩ | ⟨he, hne⟩ | ⟨he, hne⟩ |
          ⟨he, hne⟩ | ⟨he, hne⟩ | ⟨he, hne⟩
        · exact absurd he (by decide)
        · exact absurd he (by decide)
        · exact absurd he (by decide)
        · exact absurd he (by decide)
        · exact absurd he (by decide)
        · exact hne hnone

/-! ### Claim C1 -/

theorem wf_pathComps {name : String} (h : wellFormedName name = true) :
    pathComps name = rawSegsOf name := by
  have : pathComps name = (rawSegsOf name).filter (fun t => t ≠ "" && t ≠ ".") := rfl
  rw [this]
  exact List.filter_eq_self.mpr (List.all_eq_true.mp h)

theorem wf_root {name : String} (h : wellFormedName name = true) :
    posixRoot name.toList = "" := by
  cases hl : name.toList with
  | nil => rfl
  | cons c cs =>
    by_cases hc : c = '/'
    · exfalso
      have hmem : "" ∈ rawSegsOf name := by
        unfold rawSegsOf
        rw [hl, hc]
        simp [splitChar]
      have := List.all_eq_true.mp h "" hmem
      simp at this
    · simp [posixRoot, hc]

theorem renderPosix_join {parts : List String} (h : parts ≠ []) :
    renderPosix "" parts = joinSlash parts := by
  cases parts with
  | nil => exact absurd rfl h
  | cons a rest => simp [renderPosix]

theorem rawSegs_ne_nil (name : String) : rawSegsOf name ≠ [] := by
  intro hEq
  exact splitChar_ne_nil '/' name.toList (List.map_eq_nil_iff.mp hEq)

/-- Claim C1 (amended): for well-formed names — every raw slash-separated
segment non-empty and different from `"."` — the derived groups are
exactly the proper ancestor prefixes of the segments, and the VM name is
added to the member set of each of them. -/
theorem c1_ancestor_groups (names : List String) (name : String)
    (hmem : name ∈ names) (hwf : wellFormedName name = true) :
    (∀ g, g ∈ nameGroups name ↔ g ∈ c1Expected name) ∧
    (∀ g ∈ nameGroups name, ∃ ms, (g, ms) ∈ groupsOf names ∧ name ∈ ms) := by
  have hpc : pathComps name = rawSegsOf name := wf_pathComps hwf
  have hroot : posixRoot name.toList = "" := wf_root hwf
  have hne : rawSegsOf name ≠ [] := rawSegs_ne_nil name
  constructor
  · intro g
    unfold nameGroups c1Expected
    rw [hpc, hroot]
    constructor
    · intro h
      obtain ⟨j, hj, hgj⟩ := List.mem_map.mp h
      have hjr := List.mem_range.mp hj
      refine List.mem_map.mpr ⟨(rawSegsOf name).length - 1 - j,
        List.mem_range'_1.mpr ⟨by omega, by omega⟩, ?_⟩
      rw [← hgj]
      exact (renderPosix_join (by
        rw [Ne, List.take_eq_nil_iff]
        push_neg
        exact ⟨by omega, hne⟩)).symm
    · intro h
      obtain ⟨i, hi, hgi⟩ := List.mem_map.mp h
      have hir := List.mem_range'_1.mp hi
      refine List.mem_map.mpr ⟨(rawSegsOf name).length - 1 - i,
        List.mem_range.mpr (by omega), ?_⟩
      have hii : (rawSegsOf name).length - 1 - ((rawSegsOf name).length - 1 - i) = i := by
        omega
      rw [hii, renderPosix_join (by
        rw [Ne, List.take_eq_nil_iff]
        push_neg
        exact ⟨by omega, hne⟩)]
      exact hgi
  · intro g hg
    exact groupsOf_complete hmem hg

/-- Claim C1 as stated fails on the code: for the name `"a//b"` the stated
rule predicts the groups `{"a", "a/"}` built from the three raw segments,
but pathlib normalises the empty segment away and derives only `{"a"}`. -/
theorem c1_counterexample : ¬ c1Stmt "a//b" := by
  intro h
  have h1 := (h "a/").mpr (by decide)
  exact absurd h1 (by decide)

/-! ### Claim C6 -/

/-- Claim C6: an empty record list produces exactly the minimal document
(no error, no `children` key, no group entries), and in general whenever
the derived group map is empty the document keeps only the `all` and
`_meta` keys and `all` has no `children` entry. -/
theorem c6_empty_inputs :
    (∀ p : List String → List String, buildInventory p [] = .ok emptyRunDoc) ∧
    (∀ (p : List String → List String) (vms : List VMRecord) (doc : Doc),
      buildInventory p vms = .ok doc → groupsOf (namesOf vms) = [] →
        allChildrenOf doc = none ∧ keysOf doc = ["all", "_meta"]) := by
  constructor
  · intro p; rfl
  · intro p vms doc hb hgs
    obtain ⟨h', hf, hshape⟩ := build_ok_shape hb
    rcases hshape with ⟨_, hdoc⟩ | ⟨hgs2, _⟩
    · constructor
      · rw [hdoc]
        simp [allChildrenOf, dictGet, allPair0, metaPair]
      · rw [hdoc]
        simp [keysOf, allPair0, metaPair]
    · exact absurd hgs hgs2

/-- Witness for C6 at the concrete inputs `[]` and `[{"name": "x"}]`. -/
theorem c6_witness :
    buildInventory pid [] = .ok emptyRunDoc ∧
    buildInventory pid [vmNamed "x"] = .ok singleDoc ∧
    groupsOf (namesOf [vmNamed "x"]) = [] ∧
    allChildrenOf singleDoc = none ∧ keysOf singleDoc = ["all", "_meta"] :=
  ⟨c6_empty_inputs.1 pid, rfl, rfl,
    (c6_empty_inputs.2 pid [vmNamed "x"] singleDoc rfl rfl).1,
    (c6_empty_inputs.2 pid [vmNamed "x"] singleDoc rfl rfl).2⟩

/-! ### Claim C3 -/

theorem hostvarsOf_err {vm : VMRecord} {v : Scalar}
    (hsome : vm.network_address = some v) (ht : truthy v = true)
    (hip : ipInterfaceIpStr v = none) : ∃ e, hostvarsOf vm = .error e :=
  ⟨"ValueError: does not appear to be an IPv4 or IPv6 interface",
    by simp [hostvarsOf, netPart, hsome, ht, hip, Except.map]⟩

theorem hostvarsOf_ok_of_valid {vm : VMRecord}
    (h : ∀ v, vm.network_address = some v → truthy v = true →
      (ipInterfaceIpStr v).isSome) : ∃ l, hostvarsOf vm = .ok l := by
  unfold hostvarsOf
  cases hn : netPart vm.network_address with
  | ok np => exact ⟨_, rfl⟩
  | error e =>
    exfalso
    cases hna : vm.network_address with
    | none => rw [hna] at hn; simp [netPart] at hn
    | some v =>
      rw [hna] at hn
      by_cases ht : truthy v
      · cases hip : ipInterfaceIpStr v with
        | some addr => simp [netPart, ht, hip] at hn
        | none =>
          have := h v hna ht
          rw [hip] at this
          simp at this
      · simp [netPart, ht] at hn

theorem groupsStage_ok (p : List String → List String) (names : List String)
    (d : Doc) {a : Doc} (ha : dictGet d "all" = some (.obj a)) :
    ∃ d', groupsStage p names d = .ok d' := by
  simp only [groupsStage]
  by_cases hgs : (groupsOf names).isEmpty = true
  · rw [if_pos hgs]
    exact ⟨d, rfl⟩
  · rw [if_neg hgs, ha]
    exact ⟨_, rfl⟩

/-- Claim C3 (amended): a record whose `network_address` is present with a
truthy value the address parser rejects makes the whole run fail with an
error — so no document at all is produced — while a run in which every
present truthy `network_address` parses produces a document with no error.
(As stated the claim is wrong only about present falsy values, which the
truthiness guard skips without parsing; see the counterexample.) -/
theorem c3_bad_cidr_fatal (p : List String → List String) (vms : List VMRecord) :
    ((∃ vm ∈ vms, ∃ v, vm.network_address = some v ∧ truthy v = true ∧
        ipInterfaceIpStr v = none) → ∃ e, buildInventory p vms = .error e) ∧
    ((∀ vm ∈ vms, ∀ v, vm.network_address = some v → truthy v = true →
        (ipInterfaceIpStr v).isSome) → ∃ doc, buildInventory p vms = .ok doc) := by
  constructor
  · intro ⟨vm, hvm, v, hsome, ht, hip⟩
    obtain ⟨e0, he0⟩ := hostvarsOf_err hsome ht hip
    obtain ⟨e, he⟩ := hvStage_err ⟨vm, hvm, e0, he0⟩ (initDoc vms)
    refine ⟨e, ?_⟩
    unfold buildInventory
    rw [he]
    rfl
  · intro hval
    have hall : ∀ vm ∈ vms, ∃ l, hostvarsOf vm = .ok l :=
      fun vm hvm => hostvarsOf_ok_of_valid (hval vm hvm)
    obtain ⟨h', hf⟩ := hvFold_ok hall []
    unfold buildInventory
    rw [hvStage_eq vms (initDoc vms) [("hostvars", .obj [])] [] rfl rfl, hf]
    simp only [Except.map, Except.bind]
    have hget : dictGet (dictSet (initDoc vms) "_meta"
        (.obj (dictSet [("hostvars", .obj [])] "hostvars" (.obj h')))) "all" =
        some (.obj [("hosts", hostsArr vms), ("vars", varsObj)]) := by
      rw [dictGet_dictSet_ne _ _ (by decide)]
      simp [initDoc, dictGet, hostsArr, varsObj]
    exact groupsStage_ok p (namesOf vms) _ hget

/-- Claim C3 as stated fails on the code: a present but falsy
`network_address` — here the empty string, which is not a valid CIDR — is
skipped by the truthiness guard, and the run succeeds. -/
theorem c3_counterexample : ¬ c3Stmt := by
  intro h
  obtain ⟨e, he⟩ := h pid [{ name := "a", network_address := some (.s "") }]
    ⟨{ name := "a", network_address := some (.s "") }, by simp, .s "", rfl, rfl⟩
  have hok : (buildInventory pid
      [{ name := "a", network_address := some (.s "") }]).isOk = true := rfl
  rw [he] at hok
  simp [Except.isOk, Except.toBool] at hok

/-- Witness for C3: a truthy invalid CIDR aborts the run, a valid one
does not. -/
theorem c3_witness :
    (∃ e, buildInventory pid
      [{ name := "a", network_address := some (.s "nonsense") }] = .error e) ∧
    (∃ doc, buildInventory pid
      [{ name := "a", network_address := some (.s "10.0.0.5/24") }] = .ok doc) := by
  constructor
  · exact (c3_bad_cidr_fatal pid _).1
      ⟨{ name := "a", network_address := some (.s "nonsense") }, by simp, .s "nonsense",
        rfl, rfl, rfl⟩
  · refine (c3_bad_cidr_fatal pid _).2 ?_
    intro vm hvm v hsome ht
    simp only [List.mem_singleton] at hvm
    subst hvm
    simp only [Option.some.injEq] at hsome
    subst hsome
    rfl

/-! ### Counting lemmas -/

theorem countP_eq_zero_of_not_mem {l : List String} {a : String} (h : a ∉ l) :
    l.countP (fun n => decide (n = a)) = 0 :=
  List.countP_eq_zero.mpr (fun b hb => by
    simp only [decide_eq_true_eq]
    intro hEq
    exact h (hEq ▸ hb))

theorem countP_eq_one_of_nodup_mem {l : List String} {a : String}
    (hnd : l.Nodup) (hm : a ∈ l) :
    l.countP (fun n => decide (n = a)) = 1 := by
  induction l with
  | nil => simp at hm
  | cons x xs ih =>
    simp only [List.nodup_cons] at hnd
    rcases List.mem_cons.mp hm with hm | hm
    · subst hm
      rw [List.countP_cons, countP_eq_zero_of_not_mem hnd.1]
      simp
    · have hxa : ¬x = a := fun hEq => hnd.1 (hEq ▸ hm)
      rw [List.countP_cons, ih hnd.2 hm]
      simp [hxa]

theorem countP_le_one_of_nodup {l : List String} (hnd : l.Nodup) (a : String) :
    l.countP (fun n => decide (n = a)) ≤ 1 := by
  induction l with
  | nil => simp
  | cons x xs ih =>
    simp only [List.nodup_cons] at hnd
    rw [List.countP_cons]
    by_cases hxa : x = a
    · subst hxa
      rw [countP_eq_zero_of_not_mem hnd.1]
      simp
    · simpa [hxa] using ih hnd.2

theorem countStr_map (names : List String) (nm : String) :
    countStr (names.map (fun n => .scalar (.s n))) nm =
      names.countP (fun n => decide (n = nm)) := by
  unfold countStr
  rw [List.countP_map]
  rfl

theorem permPolicy_pid : PermPolicy pid := fun l => List.Perm.refl l

/-! ### Claim C4 -/

/-- Claim C4 (amended): for record lists with pairwise distinct names in
which no derived group is itself named `"all"`, every VM name occurs in
`all.hosts` exactly once, every derived group name occurs in
`all.children` exactly once, and every group's member list holds each name
at most once.  (Duplicate names duplicate `all.hosts` entries, and a group
named `"all"` overwrites the `all` entry; see the counterexample.) -/
theorem c4_unique_entries (p : List String → List String) (vms : List VMRecord)
    (doc : Doc) (hp : PermPolicy p) (hnd : (namesOf vms).Nodup)
    (hall : "all" ∉ gkeys (groupsOf (namesOf vms)))
    (hb : buildInventory p vms = .ok doc) :
    (∀ nm ∈ namesOf vms, countStr (allHostsOf doc) nm = 1) ∧
    (∀ g ∈ gkeys (groupsOf (namesOf vms)), countStr (allChildrenList doc) g = 1) ∧
    (∀ g ms, (g, ms) ∈ groupsOf (namesOf vms) →
      ∀ nm, countStr (groupHostsOf doc g) nm ≤ 1) := by
  obtain ⟨h', hf, hshape⟩ := build_ok_shape hb
  have hHosts : allHostsOf doc = (namesOf vms).map (fun n => .scalar (.s n)) := by
    rcases hshape with ⟨hgs, hdoc⟩ | ⟨hgs, hdoc⟩
    · rw [hdoc]
      simp [allHostsOf, dictGet, allPair0, metaPair, hostsArr]
    · unfold allHostsOf
      rw [hdoc, writeGroups_get_notmem p _ _ _ hall]
      simp [dictGet, allPair1, metaPair, hostsArr]
  refine ⟨?_, ?_, ?_⟩
  · intro nm hnm
    rw [hHosts, countStr_map]
    exact countP_eq_one_of_nodup_mem hnd hnm
  · intro g hg
    rcases hshape with ⟨hgs, hdoc⟩ | ⟨hgs, hdoc⟩
    · rw [hgs] at hg
      simp [gkeys] at hg
    · have hCh : allChildrenList doc =
          (gkeys (groupsOf (namesOf vms))).map (fun n => .scalar (.s n)) := by
        unfold allChildrenList allChildrenOf
        rw [hdoc, writeGroups_get_notmem p _ _ _ hall]
        simp [dictGet, allPair1, metaPair, childrenArr]
      rw [hCh, countStr_map]
      exact countP_eq_one_of_nodup_mem (gkeys_groupsOf_nodup _) hg
  · intro g ms hgm nm
    rcases hshape with ⟨hgs, hdoc⟩ | ⟨hgs, hdoc⟩
    · rw [hgs] at hgm
      simp at hgm
    · have hG : groupHostsOf doc g = (p ms).map (fun n => .scalar (.s n)) := by
        unfold groupHostsOf
        rw [hdoc, writeGroups_get_mem p _ _ _ _ (gkeys_groupsOf_nodup _) hgm]
        simp [groupObj, dictGet]
      rw [hG, countStr_map]
      have hnd2 : (p ms).Nodup := ((hp ms).nodup_iff).mpr (groupsOf_entry _ hgm).2.1
      exact countP_le_one_of_nodup hnd2 nm

/-- Claim C4 as stated fails on the code: the duplicated record list
`[{"name": "a"}, {"name": "a"}]` puts `"a"` into `all.hosts` twice. -/
theorem c4_counterexample : ¬(∀ p vms, c4Stmt p vms) := by
  intro h
  have hc := (h pid dupVms dupDoc permPolicy_pid rfl).1 "a" (by decide)
  exact absurd hc (by decide)

/-- Witness for C4 at the record list `[{"name": "a/b"}]`. -/
theorem c4_witness :
    PermPolicy pid ∧ (namesOf grpVms).Nodup ∧
    "all" ∉ gkeys (groupsOf (namesOf grpVms)) ∧
    buildInventory pid grpVms = .ok grpDoc ∧
    countStr (allHostsOf grpDoc) "a/b" = 1 ∧
    countStr (allChildrenList grpDoc) "a" = 1 ∧
    countStr (groupHostsOf grpDoc "a") "a/b" ≤ 1 := by
  have hth := c4_unique_entries pid grpVms grpDoc permPolicy_pid (by decide) (by decide) rfl
  exact ⟨permPolicy_pid, by decide, by decide, rfl, hth.1 "a/b" (by decide),
    hth.2.1 "a" (by decide), hth.2.2 "a" ["a/b"] (by decide) "a/b"⟩

/-! ### Claim C10 -/

/-- Claim C10 (amended): whenever at least one group is derived and none
of them is named `"all"`, `all.children` lists exactly the derived group
names, every derived group has a top-level entry whose member list is
non-empty, and every member of a group contains a `/` separator.  (A group
named `"all"` overwrites the `all` entry and destroys `children`; see the
counterexample.) -/
theorem c10_children_match (p : List String → List String) (vms : List VMRecord)
    (doc : Doc) (hp : PermPolicy p)
    (hall : "all" ∉ gkeys (groupsOf (namesOf vms)))
    (hb : buildInventory p vms = .ok doc)
    (hgs : groupsOf (namesOf vms) ≠ []) :
    allChildrenOf doc = some (childrenArr vms) ∧
    (∀ g ms, (g, ms) ∈ groupsOf (namesOf vms) →
      dictGet doc g = some (groupObj (p ms)) ∧ p ms ≠ [] ∧
      ∀ nm ∈ p ms, '/' ∈ nm.toList) := by
  obtain ⟨h', hf, hshape⟩ := build_ok_shape hb
  rcases hshape with ⟨hgs2, _⟩ | ⟨_, hdoc⟩
  · exact absurd hgs2 hgs
  constructor
  · unfold allChildrenOf
    rw [hdoc, writeGroups_get_notmem p _ _ _ hall]
    simp [dictGet, allPair1, metaPair, childrenArr]
  · intro g ms hgm
    refine ⟨?_, ?_, ?_⟩
    · rw [hdoc]
      exact writeGroups_get_mem p _ _ _ _ (gkeys_groupsOf_nodup _) hgm
    · intro hpm
      have hperm := hp ms
      rw [hpm] at hperm
      exact (groupsOf_entry _ hgm).1 hperm.symm.eq_nil
    · intro nm hnm
      have hmem : nm ∈ ms := (hp ms).mem_iff.mp hnm
      exact nameGroups_slash ((groupsOf_entry _ hgm).2.2 nm hmem).2

/-- Claim C10 as stated fails on the code: for `[{"name": "all/x"}]` the
derived group `"all"` is written over the `all` entry after `children` was
set, so the final document has no `children` at all. -/
theorem c10_counterexample : ¬(∀ p vms, c10Stmt p vms) := by
  intro h
  have hc := (h pid allVms allDoc permPolicy_pid rfl (by decide)).1
  rw [show allChildrenOf allDoc = none from rfl] at hc
  exact Option.noConfusion hc

/-- Witness for C10 at the record list `[{"name": "a/b"}]`. -/
theorem c10_witness :
    "all" ∉ gkeys (groupsOf (namesOf grpVms)) ∧
    groupsOf (namesOf grpVms) ≠ [] ∧
    allChildrenOf grpDoc = some (childrenArr grpVms) ∧
    dictGet grpDoc "a" = some (groupObj (pid ["a/b"])) ∧
    pid ["a/b"] ≠ [] ∧ '/' ∈ "a/b".toList := by
  have hth := c10_children_match pid grpVms grpDoc permPolicy_pid (by decide) rfl (by decide)
  exact ⟨by decide, by decide, hth.1, (hth.2 "a" ["a/b"] (by decide)).1,
    (hth.2 "a" ["a/b"] (by decide)).2.1,
    (hth.2 "a" ["a/b"] (by decide)).2.2 "a/b" (by decide)⟩

/-- Witness for C1 at the name `"a/b/c"`. -/
theorem c1_witness :
    wellFormedName "a/b/c" = true ∧
    ("a/b" ∈ nameGroups "a/b/c" ↔ "a/b" ∈ c1Expected "a/b/c") ∧
    (∃ ms, ("a", ms) ∈ groupsOf ["a/b/c"] ∧ "a/b/c" ∈ ms) := by
  have hth := c1_ancestor_groups ["a/b/c"] "a/b/c" (by decide) (by decide)
  exact ⟨by decide, hth.1 "a/b", hth.2 "a" (by decide)⟩

/-- Witness for C7 at the record `{"name": "x"}`. -/
theorem c7_witness :
    buildInventory pid [vmNamed "x"] = .ok singleDoc ∧
    "x" ∉ hostvarsKeysOf singleDoc ∧
    "ansible_host" ∉ keysOf ([] : Doc) := by
  refine ⟨rfl, ?_, ?_⟩
  · exact c7_absent_fields.1 pid [vmNamed "x"] singleDoc (vmNamed "x") rfl (by decide)
      (by decide) ⟨rfl, rfl, rfl, rfl, rfl, rfl⟩
  · exact (c7_absent_fields.2 (vmNamed "x") [] rfl).1 rfl

/-! ### Claim C2 -/

/-- Claim C2 (amended): as long as no derived group is itself named
`"_meta"`, the host-variable stage writes only inside `_meta.hostvars` and
the group stage writes only `all.children` and fresh top-level keys, so
running the two stages in either order produces the same outcome.  (A VM
named `"_meta/…"` makes the group stage overwrite `_meta`, and the two
orders then differ; see the counterexample.) -/
theorem c2_stage_commute (p : List String → List String) (vms : List VMRecord)
    (hmeta : "_meta" ∉ gkeys (groupsOf (namesOf vms))) :
    buildInventory p vms = groupsThenHv p vms := by
  unfold buildInventory groupsThenHv
  rw [hvStage_eq vms (initDoc vms) [("hostvars", .obj [])] [] rfl rfl]
  cases hgo : groupsOf (namesOf vms) with
  | nil =>
    have hgs2 : ∀ d : Doc, groupsStage p (namesOf vms) d = .ok d := by
      intro d
      simp [groupsStage, hgo]
    have hl : ∀ x : Except String Doc, x.bind (groupsStage p (namesOf vms)) = x := by
      intro x
      cases x with
      | error e => rfl
      | ok d => simp [Except.bind, hgs2]
    rw [hl, hgs2]
    show _ = Except.bind _ _
    simp only [Except.bind]
    rw [hvStage_eq vms (initDoc vms) [("hostvars", .obj [])] [] rfl rfl]
  | cons q gst =>
    have hGne : (groupsOf (namesOf vms)).isEmpty = false := by rw [hgo]; rfl
    have hgall : dictGet (initDoc vms) "all" =
        some (.obj [("hosts", hostsArr vms), ("vars", varsObj)]) := by
      simp [initDoc, dictGet, hostsArr, varsObj]
    have hRHS1 : groupsStage p (namesOf vms) (initDoc vms) =
        .ok (writeGroups p (groupsOf (namesOf vms)) (dictSet (initDoc vms) "all"
          (.obj (dictSet [("hosts", hostsArr vms), ("vars", varsObj)] "children"
            (.arr ((gkeys (groupsOf (namesOf vms))).map (fun g => JVal.scalar (.s g)))))))) := by
      simp only [groupsStage, hGne, Bool.false_eq_true, if_false, hgall, gkeys]
    rw [hRHS1]
    show _ = Except.bind _ _
    simp only [Except.bind]
    have hmetaD1 :
        dictGet
          (writeGroups p (groupsOf (namesOf vms))
            (dictSet (initDoc vms) "all"
              (JVal.obj (dictSet [("hosts", hostsArr vms), ("vars", varsObj)] "children"
                (JVal.arr ((gkeys (groupsOf (namesOf vms))).map
                  (fun g => JVal.scalar (Scalar.s g))))))))
          "_meta" = some (.obj [("hostvars", .obj [])]) := by
      rw [writeGroups_get_notmem p _ _ _ hmeta, dictGet_dictSet_ne _ _ (by decide)]
      rfl
    rw [hvStage_eq vms _ [("hostvars", .obj [])] [] hmetaD1 rfl]
    cases hfd : hvFold vms [] with
    | error e => rfl
    | ok h' =>
      simp only [Except.map, Except.bind]
      have hM : dictSet [("hostvars", .obj [])] "hostvars" (.obj h') =
          [("hostvars", .obj h')] := by
        simp [dictSet]
      rw [hM]
      have hgall2 : dictGet (dictSet (initDoc vms) "_meta" (.obj [("hostvars", .obj h')]))
          "all" = some (.obj [("hosts", hostsArr vms), ("vars", varsObj)]) := by
        rw [dictGet_dictSet_ne _ _ (by decide)]
        exact hgall
      have hLHS1 : groupsStage p (namesOf vms)
          (dictSet (initDoc vms) "_meta" (.obj [("hostvars", .obj h')])) =
          .ok (writeGroups p (groupsOf (namesOf vms))
            (dictSet (dictSet (initDoc vms) "_meta" (.obj [("hostvars", .obj h')])) "all"
              (.obj (dictSet [("hosts", hostsArr vms), ("vars", varsObj)] "children"
                (.arr ((gkeys (groupsOf (namesOf vms))).map
                  (fun g => JVal.scalar (.s g)))))))) := by
        simp only [groupsStage, hGne, Bool.false_eq_true, if_false, hgall2, gkeys]
      rw [hLHS1]
      have hmem : "_meta" ∈ keysOf (initDoc vms) := by
        simp [initDoc, keysOf]
      rw [dictSet_comm hmem (by decide)]
      rw [writeGroups_dictSet_comm p _ _ _ (mem_keysOf_dictSet _ hmem) hmeta]

/-- Claim C2 as stated fails on the code: for the single record
`{"name": "_meta/x", "ssh_host": "h"}` the program order succeeds (the
group entry `"_meta"` silently replaces the hostvars written before), but
the reverse order crashes with a `KeyError`, because the group stage has
already replaced `_meta` by a dict without a `hostvars` key. -/
theorem c2_counterexample : ¬ c2Stmt := by
  intro h
  have hc := h pid metaVms
  rw [show groupsThenHv pid metaVms = .error "KeyError: hostvars" from rfl] at hc
  have hok : (buildInventory pid metaVms).isOk = true := rfl
  rw [hc] at hok
  simp [Except.isOk, Except.toBool] at hok

/-- Witness for C2 at the record list `[{"name": "a/b", "ssh_host": "h"}]`. -/
theorem c2_witness :
    "_meta" ∉ gkeys (groupsOf (namesOf [{ name := "a/b", ssh_host := some (.s "h") }])) ∧
    buildInventory pid [{ name := "a/b", ssh_host := some (.s "h") }] =
      groupsThenHv pid [{ name := "a/b", ssh_host := some (.s "h") }] :=
  ⟨by decide, c2_stage_commute pid [{ name := "a/b", ssh_host := some (.s "h") }] (by decide)⟩

/-! ### Claim C8 -/

theorem jequiv_dictSet_right {m : Doc} {k : String} {v w : JVal} (hvw : JEquiv v w) :
    JEquiv (.obj (dictSet m k v)) (.obj (dictSet m k w)) := by
  induction m with
  | nil =>
    simp only [dictSet]
    exact JEquiv.objCons hvw JEquiv.objNil
  | cons q rest ih =>
    obtain ⟨k0, v0⟩ := q
    by_cases h0 : k0 = k
    · subst h0
      have hs : ∀ u : JVal, dictSet ((k0, v0) :: rest) k0 u = (k0, u) :: rest := by
        intro u; simp [dictSet]
      rw [hs v, hs w]
      exact JEquiv.objCons hvw (JEquiv.refl _)
    · simp only [dictSet, if_neg h0]
      exact JEquiv.objCons (JEquiv.refl _) ih

theorem jequiv_dictSet_cong {A B : JVal} (h : JEquiv A B) :
    ∀ (m m' : Doc) (k : String) (v w : JVal), A = .obj m → B = .obj m' →
      JEquiv v w → JEquiv (.obj (dictSet m k v)) (.obj (dictSet m' k w)) := by
  induction h with
  | refl x =>
    intro m m' k v w h1 h2 hvw
    rw [h1] at h2
    have : m' = m := (JVal.obj.inj h2).symm
    subst this
    exact jequiv_dictSet_right hvw
  | arr hp =>
    intro m m' k v w h1 h2 hvw
    exact absurd h1 (by simp)
  | objNil =>
    intro m m' k v w h1 h2 hvw
    obtain rfl : m = [] := JVal.obj.inj h1.symm
    obtain rfl : m' = [] := JVal.obj.inj h2.symm
    simp only [dictSet]
    exact JEquiv.objCons hvw JEquiv.objNil
  | objCons hv hm ih1 ih2 =>
    rename_i k0 v0 w0 t t'
    intro m m' k v w h1 h2 hvw
    obtain rfl : m = (k0, v0) :: t := JVal.obj.inj h1.symm
    obtain rfl : m' = (k0, w0) :: t' := JVal.obj.inj h2.symm
    by_cases h0 : k0 = k
    · subst h0
      have hs : ∀ (u x : JVal) (l : Doc), dictSet ((k0, x) :: l) k0 u = (k0, u) :: l := by
        intro u x l; simp [dictSet]
      rw [hs v, hs w]
      exact JEquiv.objCons hvw hm
    · simp only [dictSet, if_neg h0]
      exact JEquiv.objCons hv (ih2 t t' k v w rfl rfl hvw)

theorem jequiv_writeGroups {p q : List String → List String}
    (hp : PermPolicy p) (hq : PermPolicy q) :
    ∀ (gs : List (String × List String)) (d d' : Doc), JEquiv (.obj d) (.obj d') →
      JEquiv (.obj (writeGroups p gs d)) (.obj (writeGroups q gs d')) := by
  intro gs
  induction gs with
  | nil => intro d d' h; exact h
  | cons e rest ih =>
    obtain ⟨g, ms⟩ := e
    intro d d' h
    simp only [writeGroups]
    apply ih
    apply jequiv_dictSet_cong h _ _ _ _ _ rfl rfl
    apply JEquiv.objCons _ JEquiv.objNil
    exact JEquiv.arr (List.Perm.map _ ((hp ms).trans (hq ms).symm))

/-- Claim C8: the transform is deterministic up to the unspecified
enumeration order of the group member sets: two runs over the same record
snapshot with any two set-enumeration policies fail identically or
produce structurally identical documents up to reordering of the
list-valued fields. -/
theorem c8_deterministic (vms : List VMRecord) (p q : List String → List String)
    (hp : PermPolicy p) (hq : PermPolicy q) :
    exceptEquiv (buildInventory p vms) (buildInventory q vms) := by
  unfold buildInventory
  rw [hvStage_eq vms (initDoc vms) [("hostvars", .obj [])] [] rfl rfl]
  cases hfd : hvFold vms [] with
  | error e => exact rfl
  | ok h' =>
    simp only [Except.map, Except.bind]
    cases hgo : groupsOf (namesOf vms) with
    | nil =>
      have hgs2 : ∀ (r : List String → List String) (d : Doc),
          groupsStage r (namesOf vms) d = .ok d := by
        intro r d
        simp [groupsStage, hgo]
      rw [hgs2 p, hgs2 q]
      exact JEquiv.refl _
    | cons qq gst =>
      have hGne : (groupsOf (namesOf vms)).isEmpty = false := by rw [hgo]; rfl
      have hgall : dictGet (dictSet (initDoc vms) "_meta"
          (.obj (dictSet [("hostvars", .obj [])] "hostvars" (.obj h')))) "all" =
          some (.obj [("hosts", hostsArr vms), ("vars", varsObj)]) := by
        rw [dictGet_dictSet_ne _ _ (by decide)]
        simp [initDoc, dictGet, hostsArr, varsObj]
      have hst : ∀ r : List String → List String,
          groupsStage r (namesOf vms) (dictSet (initDoc vms) "_meta"
            (.obj (dictSet [("hostvars", .obj [])] "hostvars" (.obj h')))) =
          .ok (writeGroups r (groupsOf (namesOf vms))
            (dictSet (dictSet (initDoc vms) "_meta"
              (.obj (dictSet [("hostvars", .obj [])] "hostvars" (.obj h')))) "all"
              (JVal.obj (dictSet [("hosts", hostsArr vms), ("vars", varsObj)] "children"
                (JVal.arr ((gkeys (groupsOf (namesOf vms))).map
                  (fun g => JVal.scalar (Scalar.s g)))))))) := by
        intro r
        simp only [groupsStage, hGne, Bool.false_eq_true, if_false, hgall, gkeys]
      rw [hst p, hst q]
      exact jequiv_writeGroups hp hq _ _ _ (JEquiv.refl _)

/-- Witness for C8 at the record list `[{"name": "a/b"}]` with the
identity enumeration policy on both sides. -/
theorem c8_witness :
    PermPolicy pid ∧
    exceptEquiv (buildInventory pid grpVms) (buildInventory pid grpVms) :=
  ⟨permPolicy_pid, c8_deterministic grpVms pid pid permPolicy_pid permPolicy_pid⟩

end Inventory
